import Mathlib

set_option maxHeartbeats 1000000


/-- A JSON-like document tree (spec §3): objects are ordered key/value lists,
arrays are ordered sequences, scalars are string, number, boolean or null.
Numbers carry an `isFloat` tag (Python `int` vs `float`) and a rational value;
scalar comparison is value-based, ignoring the tag (spec §4.1 numeric edge case). -/
inductive Document where
  | obj  : List (String × Document) → Document
  | arr  : List Document → Document
  | str  : String → Document
  | num  : Bool → ℚ → Document
  | bool : Bool → Document
  | null : Document

mutual

def decEqDoc : (a b : Document) → Decidable (a = b)
  | .obj xs, .obj ys =>
      match decEqKVs xs ys with
      | isTrue h => isTrue (by rw [h])
      | isFalse h => isFalse (by simp [h])
  | .arr xs, .arr ys =>
      match decEqDocs xs ys with
      | isTrue h => isTrue (by rw [h])
      | isFalse h => isFalse (by simp [h])
  | .str s, .str t =>
      match decEq s t with
      | isTrue h => isTrue (by rw [h])
      | isFalse h => isFalse (by simp [h])
  | .num f q, .num g r =>
      match decEq f g, decEq q r with
      | isTrue h, isTrue h' => isTrue (by rw [h, h'])
      | isFalse h, _ => isFalse (by simp [h])
      | _, isFalse h' => isFalse (by simp [h'])
  | .bool u, .bool v =>
      match decEq u v with
      | isTrue h => isTrue (by rw [h])
      | isFalse h => isFalse (by simp [h])
  | .null, .null => isTrue rfl
  | .obj _, .arr _ => isFalse (by simp)
  | .obj _, .str _ => isFalse (by simp)
  | .obj _, .num _ _ => isFalse (by simp)
  | .obj _, .bool _ => isFalse (by simp)
  | .obj _, .null => isFalse (by simp)
  | .arr _, .obj _ => isFalse (by simp)
  | .arr _, .str _ => isFalse (by simp)
  | .arr _, .num _ _ => isFalse (by simp)
  | .arr _, .bool _ => isFalse (by simp)
  | .arr _, .null => isFalse (by simp)
  | .str _, .obj _ => isFalse (by simp)
  | .str _, .arr _ => isFalse (by simp)
  | .str _, .num _ _ => isFalse (by simp)
  | .str _, .bool _ => isFalse (by simp)
  | .str _, .null => isFalse (by simp)
  | .num _ _, .obj _ => isFalse (by simp)
  | .num _ _, .arr _ => isFalse (by simp)
  | .num _ _, .str _ => isFalse (by simp)
  | .num _ _, .bool _ => isFalse (by simp)
  | .num _ _, .null => isFalse (by simp)
  | .bool _, .obj _ => isFalse (by simp)
  | .bool _, .arr _ => isFalse (by simp)
  | .bool _, .str _ => isFalse (by simp)
  | .bool _, .num _ _ => isFalse (by simp)
  | .bool _, .null => isFalse (by simp)
  | .null, .obj _ => isFalse (by simp)
  | .null, .arr _ => isFalse (by simp)
  | .null, .str _ => isFalse (by simp)
  | .null, .num _ _ => isFalse (by simp)
  | .null, .bool _ => isFalse (by simp)

def decEqKVs : (xs ys : List (String × Document)) → Decidable (xs = ys)
  | [], [] => isTrue rfl
  | _ :: _, [] => isFalse (by simp)
  | [], _ :: _ => isFalse (by simp)
  | (k, v) :: xs, (k', v') :: ys =>
      match decEq k k', decEqDoc v v', decEqKVs xs ys with
      | isTrue h1, isTrue h2, isTrue h3 => isTrue (by rw [h1, h2, h3])
      | isFalse h1, _, _ => isFalse (by simp [h1])
      | _, isFalse h2, _ => isFalse (by simp [h2])
      | _, _, isFalse h3 => isFalse (by simp [h3])

def decEqDocs : (xs ys : List Document) → Decidable (xs = ys)
  | [], [] => isTrue rfl
  | _ :: _, [] => isFalse (by simp)
  | [], _ :: _ => isFalse (by simp)
  | x :: xs, y :: ys =>
      match decEqDoc x y, decEqDocs xs ys with
      | isTrue h1, isTrue h2 => isTrue (by rw [h1, h2])
      | isFalse h1, _ => isFalse (by simp [h1])
      | _, isFalse h2 => isFalse (by simp [h2])

end

instance : DecidableEq Document := decEqDoc

/-- One step of a diff path: an object key or an array index (spec §3). -/
inductive PathElem where
  | key : String → PathElem
  | idx : Nat → PathElem
deriving DecidableEq

inductive DiffKind where
  | added | removed | valueChanged | typeChanged
deriving DecidableEq

/-- One structural change (spec §3): kind, path from the root, and the
old/new subtree where present. -/
structure DiffEntry where
  kind : DiffKind
  path : List PathElem
  old_value : Option Document
  new_value : Option Document
deriving DecidableEq

/-- The three node kinds of the data model (spec §3). -/
inductive NodeKind where
  | object | array | scalar
deriving DecidableEq

def kindOf : Document → NodeKind
  | .obj _ => .object
  | .arr _ => .array
  | _ => .scalar

/-- Pair each list element with its position, starting from `k`. -/
def idxFrom (k : Nat) : List α → List (Nat × α)
  | [] => []
  | x :: xs => (k, x) :: idxFrom (k + 1) xs

def prependPath (e : PathElem) (d : DiffEntry) : DiffEntry :=
  { d with path := e :: d.path }

theorem sizeOf_append (l₁ l₂ : List Document) :
    sizeOf (l₁ ++ l₂) + 1 = sizeOf l₁ + sizeOf l₂ := by
  induction l₁ with
  | nil =>
    simp only [List.nil_append]
    have : sizeOf ([] : List Document) = 1 := rfl
    omega
  | cons a t ih => simp [List.cons_append]; omega

theorem mem_idxFrom_split {k i : Nat} {y : α} {ys : List α}
    (h : (i, y) ∈ idxFrom k ys) :
    ∃ l₁ l₂, ys = l₁ ++ y :: l₂ ∧ l₁.length = i - k ∧ k ≤ i := by
  induction ys generalizing k with
  | nil => simp [idxFrom] at h
  | cons z t ih =>
    simp only [idxFrom, List.mem_cons, Prod.mk.injEq] at h
    rcases h with ⟨rfl, rfl⟩ | h
    · exact ⟨[], t, rfl, by simp, by omega⟩
    · obtain ⟨l₁, l₂, rfl, hlen, hk⟩ := ih h
      refine ⟨z :: l₁, l₂, rfl, ?_, by omega⟩
      simp only [List.length_cons]
      omega

theorem sizeOf_pair_lt_of_take {i : Nat} {y y' : Document} {ys : List Document}
    (h : (i, y) ∈ idxFrom 0 ys) (h' : y' ∈ ys.take i) :
    sizeOf y' + sizeOf y < sizeOf ys := by
  obtain ⟨l₁, l₂, rfl, hlen, -⟩ := mem_idxFrom_split h
  simp only [Nat.sub_zero] at hlen
  have hmem : y' ∈ l₁ := by
    rw [List.take_append_of_le_length (by omega)] at h'
    exact List.take_subset i l₁ h'
  have h1 : sizeOf y' < sizeOf l₁ := List.sizeOf_lt_of_mem hmem
  have h2 := sizeOf_append l₁ (y :: l₂)
  have h3 : sizeOf (y :: l₂) = 1 + sizeOf y + sizeOf l₂ := by
    simp only [List.cons.sizeOf_spec]
  have h4 : 1 ≤ sizeOf l₂ := by cases l₂ <;> simp <;> omega
  omega

theorem sizeOf_snd_lt_of_mem_idxFrom {k i : Nat} {y : Document} {ys : List Document}
    (h : (i, y) ∈ idxFrom k ys) : sizeOf y < sizeOf ys := by
  obtain ⟨l₁, l₂, rfl, -, -⟩ := mem_idxFrom_split h
  have h2 := sizeOf_append l₁ (y :: l₂)
  have h3 : sizeOf (y :: l₂) = 1 + sizeOf y + sizeOf l₂ := by
    simp only [List.cons.sizeOf_spec]
  have h4 : 1 ≤ sizeOf l₁ := by cases l₁ <;> simp <;> omega
  omega

theorem sizeOf_snd_lt_of_mem_kv {k : String} {v : Document}
    {xs : List (String × Document)} (h : (k, v) ∈ xs) : sizeOf v < sizeOf xs := by
  have h1 := List.sizeOf_lt_of_mem h
  have h2 : sizeOf (k, v) = 1 + sizeOf k + sizeOf v := rfl
  omega

/-- The contribution of one entry of the new object `ys` to the diff report,
parametrised by the comparison used on the paired values (the diff engine
passes its own recursive call).  If the key exists in the old object `xs` the
values are compared recursively and the key is prepended to each resulting
path; otherwise a single `Added` entry is produced. -/
def objNewPart (xs ys : List (String × Document))
    (f : {p : String × Document // p ∈ xs} → {q : String × Document // q ∈ ys} → List DiffEntry)
    (kw : {q : String × Document // q ∈ ys}) : List DiffEntry :=
  match xs.attach.find? (fun p => p.1.1 == kw.1.1) with
  | some p => (f p kw).map (prependPath (.key kw.1.1))
  | none => [⟨.added, [.key kw.1.1], none, some kw.1.2⟩]

/-- Modelled from the spec: the structural diff engine of §4.1.  The source
(`compare_specs`, src/deepDiff.py line 90) delegates the whole algorithm to the
third-party `DeepDiff(previous, current, ignore_order=True)` library call,
whose code is not part of this repository; §4.1 (with the §9 design note)
re-specifies it as a recursive, depth-first comparison whose array rule is a
maximum matching by exact structural equality.  `deepDiff old new` returns the
diff entries, paths relative to the two roots (callers prepend their step).
An array element is matched (is an endpoint of the maximum matching by exact
structural equality) iff the number of structurally equal elements on the
other side exceeds the number of structurally equal elements occurring
earlier on its own side; unmatched `new` elements are `Added`, unmatched
`old` elements are `Removed`, which gives exactly the unmatched endpoints of
the maximum matching. -/
def deepDiff (a b : Document) : List DiffEntry :=
  match a, b with
  | .obj xs, .obj ys =>
      let fromNew := ys.attach.flatMap
        (objNewPart xs ys (fun p q => deepDiff p.1.2 q.1.2))
      let removed := (xs.filter (fun p => !(ys.any (fun q => q.1 == p.1)))).map
        (fun p => ⟨.removed, [.key p.1], some p.2, none⟩)
      fromNew ++ removed
  | .arr xs, .arr ys =>
      let adds := ((idxFrom 0 ys).attach.filter (fun yq =>
          match yq with
          | ⟨(i, yv), hyv⟩ =>
            !(decide ((ys.take i).attach.countP
                (fun y2 => (deepDiff y2.1 yv).isEmpty) <
              xs.attach.countP (fun x2 => (deepDiff x2.1 yv).isEmpty))))).map
        (fun yq => ⟨.added, [.idx yq.1.1], none, some yq.1.2⟩)
      let rems := ((idxFrom 0 xs).attach.filter (fun xp =>
          match xp with
          | ⟨(j, xv), hxv⟩ =>
            !(decide ((xs.take j).attach.countP
                (fun x2 => (deepDiff x2.1 xv).isEmpty) <
              ys.attach.countP (fun y2 => (deepDiff xv y2.1).isEmpty))))).map
        (fun xp => ⟨.removed, [.idx xp.1.1], some xp.1.2, none⟩)
      adds ++ rems
  | .str s, .str t =>
      if s = t then [] else [⟨.valueChanged, [], some a, some b⟩]
  | .num _ q, .num _ r =>
      if q = r then [] else [⟨.valueChanged, [], some a, some b⟩]
  | .bool u, .bool v =>
      if u = v then [] else [⟨.valueChanged, [], some a, some b⟩]
  | .null, .null => []
  | _, _ => [⟨.typeChanged, [], some a, some b⟩]
termination_by sizeOf a + sizeOf b
decreasing_by
  all_goals simp_wf
  all_goals first
    | (have h1 := sizeOf_snd_lt_of_mem_kv (k := p.1.1) (v := p.1.2) p.2
       have h2 := sizeOf_snd_lt_of_mem_kv (k := q.1.1) (v := q.1.2) q.2
       omega)
    | (have h1 := sizeOf_pair_lt_of_take hyv y2.2
       omega)
    | (have h1 := sizeOf_snd_lt_of_mem_idxFrom hyv
       have h2 := List.sizeOf_lt_of_mem x2.2
       omega)
    | (have h1 := sizeOf_pair_lt_of_take hxv x2.2
       omega)
    | (have h1 := sizeOf_snd_lt_of_mem_idxFrom hxv
       have h2 := List.sizeOf_lt_of_mem y2.2
       omega)

/-- The function `compare_specs(current_spec, previous_spec)` (src/compare.py lines 88-91)
returns `DeepDiff(previous_spec, current_spec, ignore_order=True)`: the old
document is the previous spec, the new document is the current spec. -/
def compare_specs (current_spec previous_spec : Document) : List DiffEntry :=
  deepDiff previous_spec current_spec

/-- Keys pairwise distinct (Python dicts cannot contain duplicate keys). -/
def strNodup : List String → Bool
  | [] => true
  | k :: ks => !(ks.contains k) && strNodup ks

/-- Well-formedness of a Document (spec §3): every object node is a mapping
with unique keys.  Parsed JSON objects (Python dicts) always satisfy this. -/
def wfDoc (a : Document) : Bool :=
  match a with
  | .obj xs =>
      strNodup (xs.map (fun p => p.1)) &&
      xs.attach.all (fun p =>
        match p with
        | ⟨(k, v), hv⟩ => wfDoc v)
  | .arr xs => xs.attach.all (fun x => wfDoc x.1)
  | _ => true
termination_by sizeOf a
decreasing_by
  all_goals simp_wf
  · have h1 := sizeOf_snd_lt_of_mem_kv hv
    omega
  · have h1 := List.sizeOf_lt_of_mem x.2
    omega

/-- Structural equality of documents under the order-insensitive-array rule
(spec §4.1 and glossary): scalars equal by type-agnostic value, objects equal
iff they bind the same keys to structurally equal values, arrays equal iff
they are equal as multisets of element subtrees.  The array clause states,
for both sides, that every element is matched: the number of structurally
equal elements on the other side exceeds the number of structurally equal
elements occurring earlier on its own side.  This definition mirrors
`deepDiff` so that `deepDiff a b = [] ↔ deq a b` can be proved, but carries
no diff entries. -/
def deq (a b : Document) : Bool :=
  match a, b with
  | .obj xs, .obj ys =>
      ys.attach.all (fun yq =>
        match yq with
        | ⟨(k, w), hw⟩ =>
          match xs.attach.find? (fun p => p.1.1 == k) with
          | some ⟨(k2, v), hv⟩ => deq v w
          | none => false)
      && xs.all (fun p => ys.any (fun q => q.1 == p.1))
  | .arr xs, .arr ys =>
      (idxFrom 0 ys).attach.all (fun yq =>
        match yq with
        | ⟨(i, yv), hyv⟩ =>
          decide ((ys.take i).attach.countP (fun y2 => deq y2.1 yv) <
            xs.attach.countP (fun x2 => deq x2.1 yv)))
      && (idxFrom 0 xs).attach.all (fun xp =>
        match xp with
        | ⟨(j, xv), hxv⟩ =>
          decide ((xs.take j).attach.countP (fun x2 => deq x2.1 xv) <
            ys.attach.countP (fun y2 => deq xv y2.1)))
  | .str s, .str t => s == t
  | .num _ q, .num _ r => decide (q = r)
  | .bool u, .bool v => u == v
  | .null, .null => true
  | _, _ => false
termination_by sizeOf a + sizeOf b
decreasing_by
  all_goals simp_wf
  all_goals first
    | (have h1 := sizeOf_snd_lt_of_mem_kv hv
       have h2 := sizeOf_snd_lt_of_mem_kv hw
       omega)
    | (have h1 := sizeOf_pair_lt_of_take hyv y2.2
       omega)
    | (have h1 := sizeOf_snd_lt_of_mem_idxFrom hyv
       have h2 := List.sizeOf_lt_of_mem x2.2
       omega)
    | (have h1 := sizeOf_pair_lt_of_take hxv x2.2
       omega)
    | (have h1 := sizeOf_snd_lt_of_mem_idxFrom hxv
       have h2 := List.sizeOf_lt_of_mem y2.2
       omega)

/-- Boolean structural equality through the diff engine: empty diff. -/
def ddEq (a b : Document) : Bool := (deepDiff a b).isEmpty

/-- Every element of the new array `ys` is matched: the number of `E`-equal
elements in the old array exceeds the number of `E`-equal elements occurring
earlier in `ys`. -/
def MatchedAllNew (E : Document → Document → Bool) (xs ys : List Document) : Prop :=
  ∀ i yv, (i, yv) ∈ idxFrom 0 ys →
    (ys.take i).countP (fun y2 => E y2 yv) < xs.countP (fun x2 => E x2 yv)

/-- Every element of the old array `xs` is matched. -/
def MatchedAllOld (E : Document → Document → Bool) (xs ys : List Document) : Prop :=
  ∀ j xv, (j, xv) ∈ idxFrom 0 xs →
    (xs.take j).countP (fun x2 => E x2 xv) < ys.countP (fun y2 => E xv y2)

/-- The contribution of one `new`-object entry to the diff report
(attach-free form of `objNewPart` at the diff engine itself). -/
def objFromNewFn (xs : List (String × Document)) (kw : String × Document) : List DiffEntry :=
  match xs.find? (fun p => p.1 == kw.1) with
  | some kv => (deepDiff kv.2 kw.2).map (prependPath (.key kw.1))
  | none => [⟨.added, [.key kw.1], none, some kw.2⟩]

def condAttachNew (xs ys : List Document) (iy : Nat × Document) : Bool :=
  !(decide ((ys.take iy.1).attach.countP (fun y2 => (deepDiff y2.1 iy.2).isEmpty) <
    xs.attach.countP (fun x2 => (deepDiff x2.1 iy.2).isEmpty)))

def condAttachOld (xs ys : List Document) (jx : Nat × Document) : Bool :=
  !(decide ((xs.take jx.1).attach.countP (fun x2 => (deepDiff x2.1 jx.2).isEmpty) <
    ys.attach.countP (fun y2 => (deepDiff jx.2 y2.1).isEmpty)))

/-- The element of `new` at position `i` is NOT matched by the maximum
matching by exact structural equality. -/
def unmatchedNewCond (xs ys : List Document) (iy : Nat × Document) : Bool :=
  !(decide ((ys.take iy.1).countP (fun y2 => (deepDiff y2 iy.2).isEmpty) <
    xs.countP (fun x2 => (deepDiff x2 iy.2).isEmpty)))

/-- The element of `old` at position `j` is NOT matched. -/
def unmatchedOldCond (xs ys : List Document) (jx : Nat × Document) : Bool :=
  !(decide ((xs.take jx.1).countP (fun x2 => (deepDiff x2 jx.2).isEmpty) <
    ys.countP (fun y2 => (deepDiff jx.2 y2).isEmpty)))

/-- The paths of all entries of kind `k` in a report, in report order. -/
def entriesOfKind (k : DiffKind) (r : List DiffEntry) : List (List PathElem) :=
  (r.filter (fun e => e.kind == k)).map (fun e => e.path)

/-- Added paths contributed by a key present in both objects (old side `xs`,
new side `ys`). -/
def addKeyPaths (xs ys : List (String × Document)) (k : String) : List (List PathElem) :=
  match xs.find? (fun p => p.1 == k), ys.find? (fun p => p.1 == k) with
  | some kv, some kw => (entriesOfKind .added (deepDiff kv.2 kw.2)).map (fun pth => .key k :: pth)
  | _, _ => []

/-- Removed paths contributed by a key present in both objects, as they appear
in the reversed comparison `deepDiff (obj ys) (obj xs)`. -/
def remKeyPaths (xs ys : List (String × Document)) (k : String) : List (List PathElem) :=
  match xs.find? (fun p => p.1 == k), ys.find? (fun p => p.1 == k) with
  | some kv, some kw => (entriesOfKind .removed (deepDiff kw.2 kv.2)).map (fun pth => .key k :: pth)
  | _, _ => []

/-- A calendar timestamp with second precision: the fields of a Python
`datetime` as used by the store. -/
structure DT where
  year : Nat
  month : Nat
  day : Nat
  hour : Nat
  minute : Nat
  second : Nat
deriving DecidableEq

def isLeap (y : Nat) : Bool := (y % 4 == 0 && y % 100 != 0) || y % 400 == 0

def daysInMonth (y m : Nat) : Nat :=
  if m = 2 then (if isLeap y then 29 else 28)
  else if m = 4 ∨ m = 6 ∨ m = 9 ∨ m = 11 then 30 else 31

/-- The validity invariant of a Python `datetime` value (its constructor
raises `ValueError` otherwise). -/
def dtValid (t : DT) : Bool :=
  decide (1 ≤ t.year) && decide (t.year ≤ 9999) &&
  decide (1 ≤ t.month) && decide (t.month ≤ 12) &&
  decide (1 ≤ t.day) && decide (t.day ≤ daysInMonth t.year t.month) &&
  decide (t.hour ≤ 23) && decide (t.minute ≤ 59) && decide (t.second ≤ 59)

/-- Numeric key realising the chronological order of valid timestamps:
mirrors Python `datetime` comparison (lexicographic on the fields, which for
in-range fields agrees with this positional encoding). -/
def dtKey (t : DT) : Nat :=
  ((((t.year * 100 + t.month) * 100 + t.day) * 100 + t.hour) * 100 + t.minute) * 100
    + t.second

def digitChar : Nat → Char
  | 0 => '0' | 1 => '1' | 2 => '2' | 3 => '3' | 4 => '4'
  | 5 => '5' | 6 => '6' | 7 => '7' | 8 => '8' | _ => '9'

def digitVal (c : Char) : Nat := c.toNat - 48

def pad2 (n : Nat) : List Char := [digitChar (n / 10 % 10), digitChar (n % 10)]

def pad4 (n : Nat) : List Char :=
  [digitChar (n / 1000 % 10), digitChar (n / 100 % 10),
   digitChar (n / 10 % 10), digitChar (n % 10)]

/-- Python `datetime.strftime('%Y%m%d%H%M%S')`: fixed-width zero-padded decimal
fields, 14 characters total. -/
def fmtDT (t : DT) : List Char :=
  pad4 t.year ++ pad2 t.month ++ pad2 t.day ++ pad2 t.hour ++ pad2 t.minute
    ++ pad2 t.second

/-- Read exactly `k` decimal digits, returning their value and the rest. -/
def takeDigits : Nat → List Char → Option (Nat × List Char)
  | 0, cs => some (0, cs)
  | _ + 1, [] => none
  | k + 1, c :: cs =>
      if c.isDigit then
        (takeDigits k cs).map (fun vr => (digitVal c * 10 ^ k + vr.1, vr.2))
      else none

/-- One `strptime` directive: which values its two-digit form accepts and
which values its one-digit form accepts.  CPython `_strptime` compiles
`%m` to `1[0-2]|0[1-9]|[1-9]`, `%d` to `3[01]|[12]\d|0[1-9]|[1-9]`,
`%H` to `2[0-3]|[0-1]\d|\d`, `%M` and `%S` to two-digit-or-one-digit
alternations as well; in every case the two-digit alternatives come first. -/
structure FieldSpec where
  two : Nat → Bool
  one : Nat → Bool

/-- Regex-style matching of a sequence of directives with backtracking:
the two-digit branch of each directive is preferred, and a failure anywhere
downstream falls back to the one-digit branch. -/
def parseFields : List FieldSpec → List Char → Option (List Nat)
  | [], [] => some []
  | [], _ :: _ => none
  | f :: fs, cs =>
      (match takeDigits 2 cs with
       | some (v, rest) =>
           if f.two v then (parseFields fs rest).map (fun vs => v :: vs) else none
       | none => none)
      <|>
      (match takeDigits 1 cs with
       | some (v, rest) =>
           if f.one v then (parseFields fs rest).map (fun vs => v :: vs) else none
       | none => none)

/-- Python `datetime.strptime(s, '%Y%m%d%H%M%S')` returning `none` where Python
raises `ValueError`: `%Y` is exactly four digits, the five remaining fields
follow the CPython `_strptime` alternations, the whole string must be
consumed, and the resulting fields must form a valid `datetime`. -/
def strptimeYmdHMS (s : List Char) : Option DT :=
  match takeDigits 4 s with
  | none => none
  | some (y, rest) =>
      match parseFields
          [⟨fun v => decide (1 ≤ v) && decide (v ≤ 12), fun v => decide (1 ≤ v)⟩,
           ⟨fun v => decide (1 ≤ v) && decide (v ≤ 31), fun v => decide (1 ≤ v)⟩,
           ⟨fun v => decide (v ≤ 23), fun _ => true⟩,
           ⟨fun v => decide (v ≤ 59), fun _ => true⟩,
           ⟨fun v => decide (v ≤ 61), fun _ => true⟩] rest with
      | some [m, d, hh, mm, ss] =>
          if 1 ≤ y ∧ d ≤ daysInMonth y m ∧ ss ≤ 59 then
            some ⟨y, m, d, hh, mm, ss⟩
          else none
      | _ => none

/-- The timestamped snapshot filename written by `save_spec`:
`f"{base_filename}_{timestamp}.json"`. -/
def snapName (base : List Char) (t : DT) : List Char :=
  base ++ '_' :: (fmtDT t ++ ".json".toList)

/-- The timestamp slice `filename[len(base_filename)+1:-5]` taken by
`get_latest_spec_in_range`. -/
def sliceTs (base fn : List Char) : List Char :=
  (fn.take (fn.length - 5)).drop (base.length + 1)

/-- Whether `start_time <= t <= end_time`, each bound optional: the two
`datetime` comparisons guarding the update in `get_latest_spec_in_range`. -/
def inRange (s e : Option DT) (t : DT) : Bool :=
  (match s with
   | none => true
   | some s0 => decide (dtKey s0 ≤ dtKey t)) &&
  (match e with
   | none => true
   | some e0 => decide (dtKey t ≤ dtKey e0))

/-- One iteration of the loop in `get_latest_spec_in_range`
(src/compare.py lines 73-83): skip files not named `{base}...*.json`, parse
the timestamp slice (a `ValueError` is caught and the file skipped), and
keep the file when it is in range and strictly newer than the current best. -/
def getLatestStep (base : List Char) (s e : Option DT)
    (acc : Option (DT × List Char)) (fn : List Char) : Option (DT × List Char) :=
  if base.isPrefixOf fn && ".json".toList.isSuffixOf fn then
    match strptimeYmdHMS (sliceTs base fn) with
    | some t =>
        if inRange s e t &&
            (match acc with
             | none => true
             | some lt => decide (dtKey lt.1 < dtKey t)) then
          some (t, fn)
        else acc
    | none => acc
  else acc

/-- The function `get_latest_spec_in_range(directory, base_filename, start_time, end_time)`
(src/compare.py lines 65-85): scan the directory listing and return the path
(directory joined with the filename) of the latest snapshot in range, or
`none`.  A missing directory behaves like an empty listing: the source
returns `None` in both cases. -/
def get_latest_spec_in_range (dir : List Char) (listing : List (List Char))
    (base : List Char) (s e : Option DT) : Option (List Char) :=
  (listing.foldl (getLatestStep base s e) none).map (fun p => dir ++ '/' :: p.2)

/-- A listing entry is eligible iff it has the `{base}…` prefix, the `.json`
suffix, and a timestamp slice accepted by `strptime`. -/
def eligibleFile (base : List Char) (fn : List Char) : Bool :=
  base.isPrefixOf fn && ".json".toList.isSuffixOf fn &&
    (strptimeYmdHMS (sliceTs base fn)).isSome

/-- A directory of the file system: file names mapped to (JSON) contents.
The listing order carries no information. -/
def FileDir : Type := List (List Char × Document)

/-- Python `open(path, 'w')` followed by `json.dump`: create or truncate, so any
previous content under the same name is replaced. -/
def writeFile (d : FileDir) (name : List Char) (content : Document) : FileDir :=
  (name, content) :: List.filter (fun p => !(decide (p.1 = name))) d

def readFile (d : FileDir) (name : List Char) : Option Document :=
  (List.find? (fun p => decide (p.1 = name)) d).map (fun p => p.2)

/-- The function `save_spec(spec, directory, base_filename)` (src/compare.py lines 45-52):
writes the document to `{base_filename}_{timestamp}.json` in the directory,
with `timestamp = datetime.now().strftime('%Y%m%d%H%M%S')`; the wall-clock
`now` is made an explicit parameter.  The write never fails and never checks
for an existing snapshot: an existing file at the same name is overwritten. -/
def save_spec (d : FileDir) (base : List Char) (now : DT) (spec : Document) : FileDir :=
  writeFile d (snapName base now) spec

/-- The function `load_spec` (src/compare.py lines 13-42), restricted to its local-file
branch: read and JSON-parse the file (modelled as the stored `Document`,
since `json.load` after `json.dump` is the identity on JSON values), then
validate it with the external `swagger_spec_validator` collaborator
(the parameter `validate`); a missing file or a failed validation prints a
message and returns `None`. -/
def load_spec (validate : Document → Bool) (d : FileDir) (name : List Char) :
    Option Document :=
  match readFile d name with
  | none => none
  | some doc => if validate doc then some doc else none

/-- The characters allowed in a URL scheme (CPython `urllib.parse`:
letters, digits and `+-.`). -/
def scheme_chars (c : Char) : Bool :=
  c.isAlpha || c.isDigit || c = '+' || c = '-' || c = '.'

/-- The scheme-splitting step of CPython `urlsplit`: when the text before
the first `':'` is a non-empty valid scheme starting with a letter, drop it
together with the colon. -/
def splitScheme (u : List Char) : List Char :=
  match u.findIdx? (fun c => c = ':') with
  | some i =>
      match u with
      | [] => u
      | c0 :: _ =>
          if 0 < i && c0.isAlpha && (u.take i).all scheme_chars then u.drop (i + 1)
          else u
  | none => u

/-- The netloc-splitting step of `urlsplit`: when the text starts with `//`,
drop everything up to (but not including) the next `/`, `?` or `#`. -/
def splitNetloc (u : List Char) : List Char :=
  match u with
  | '/' :: '/' :: rest => rest.dropWhile (fun c => !(c = '/' || c = '?' || c = '#'))
  | _ => u

/-- Drop a `#fragment` suffix, if any. -/
def splitFragment (u : List Char) : List Char := u.takeWhile (fun c => !(c = '#'))

/-- Drop a `?query` suffix, if any. -/
def splitQuery (u : List Char) : List Char := u.takeWhile (fun c => !(c = '?'))

/-- The value `urlparse(url).path` as computed by CPython `urlsplit`: strip the
scheme, then the netloc, then the fragment, then the query; what remains is
the path.  (The source never exercises `urlsplit`'s bracket validation,
which raises on unbalanced `[]` in the netloc.) -/
def urlparse_path (u : List Char) : List Char :=
  splitQuery (splitFragment (splitNetloc (splitScheme u)))

/-- Python `str.split(sep)` with a one-character separator: splits on every
occurrence and keeps empty segments, `"".split(sep) == ['']`. -/
def splitOnChar (sep : Char) : List Char → List (List Char)
  | [] => [[]]
  | c :: cs =>
      if c = sep then [] :: splitOnChar sep cs
      else
        match splitOnChar sep cs with
        | st :: ss => (c :: st) :: ss
        | [] => [[c]]

/-- The function `extract_default_directory(url)` (src/compare.py lines 94-99):
`urlparse(url).path.split('/')`; return `path_parts[-2]` when there are at
least two parts, else `'.'`. -/
def extract_default_directory (u : List Char) : List Char :=
  let path_parts := splitOnChar '/' (urlparse_path u)
  if 2 ≤ path_parts.length then path_parts.getD (path_parts.length - 2) [] else ['.']

/-- Modelled from the spec: `derive_key(url) = second-to-last '/'-delimited
path segment, or "." if the path has fewer than two segments` (spec §4.2);
stated on the URL's path. -/
def derive_key_spec (path : List Char) : List Char :=
  let segs := splitOnChar '/' path
  if segs.length < 2 then ['.'] else segs.getD (segs.length - 2) []

theorem attach_flatMap_val {α : Type} {β : Type} (l : List α) (f : α → List β) :
    l.attach.flatMap (fun q => f q.1) = l.flatMap f := by
  conv_rhs => rw [← List.attach_map_subtype_val l]
  exact (List.flatMap_map Subtype.val f l.attach).symm

theorem attach_filter_map_val {α : Type} {β : Type} (l : List α) (c : α → Bool) (m : α → β) :
    (l.attach.filter (fun q => c q.1)).map (fun q => m q.1) = (l.filter c).map m := by
  have h2 : (l.attach.filter (fun q => c q.1)).map Subtype.val = l.filter c := by
    have h3 := List.filter_map (Subtype.val) (l := l.attach) (p := c)
    rw [List.attach_map_subtype_val] at h3
    exact h3.symm
  calc (l.attach.filter (fun q => c q.1)).map (fun q => m q.1)
      = ((l.attach.filter (fun q => c q.1)).map Subtype.val).map m := by
        rw [List.map_map]; rfl
    _ = (l.filter c).map m := by rw [h2]

theorem attach_countP_val {α : Type} (l : List α) (c : α → Bool) :
    l.attach.countP (fun q => c q.1) = l.countP c := List.countP_attach _ _

theorem attach_all_val {α : Type} (l : List α) (c : α → Bool) :
    l.attach.all (fun q => c q.1) = l.all c := by
  rcases h : l.all c with _ | _
  · rw [List.all_eq_false] at h
    obtain ⟨x, hx, hpx⟩ := h
    rw [List.all_eq_false]
    exact ⟨⟨x, hx⟩, List.mem_attach l _, hpx⟩
  · rw [List.all_eq_true] at h
    rw [List.all_eq_true]
    exact fun q _ => h q.1 q.2

theorem attach_find?_val {α : Type} (l : List α) (c : α → Bool) :
    (l.attach.find? (fun q => c q.1)).map Subtype.val = l.find? c := by
  have h := List.find?_map (Subtype.val) l.attach (p := c)
  rw [List.attach_map_subtype_val] at h
  exact h.symm

theorem dd_arr_empty_iff (xs ys : List Document) :
    deepDiff (.arr xs) (.arr ys) = [] ↔
      MatchedAllNew ddEq xs ys ∧ MatchedAllOld ddEq xs ys := by
  rw [deepDiff]
  simp only [List.append_eq_nil, List.map_eq_nil_iff, List.filter_eq_nil_iff]
  constructor
  · rintro ⟨hA, hR⟩
    constructor
    · intro i yv hmem
      have h1 := hA ⟨(i, yv), hmem⟩ (List.mem_attach _ _)
      simp only [Bool.not_eq_true, Bool.not_eq_false'] at h1
      rw [List.countP_attach (ys.take i) (fun y2 => (deepDiff y2 yv).isEmpty),
          List.countP_attach xs (fun x2 => (deepDiff x2 yv).isEmpty)] at h1
      exact of_decide_eq_true h1
    · intro j xv hmem
      have h1 := hR ⟨(j, xv), hmem⟩ (List.mem_attach _ _)
      simp only [Bool.not_eq_true, Bool.not_eq_false'] at h1
      rw [List.countP_attach (xs.take j) (fun x2 => (deepDiff x2 xv).isEmpty),
          List.countP_attach ys (fun y2 => (deepDiff xv y2).isEmpty)] at h1
      exact of_decide_eq_true h1
  · rintro ⟨hA, hR⟩
    constructor
    · rintro ⟨⟨i, yv⟩, hmem⟩ -
      have h1 := hA i yv hmem
      simp only [Bool.not_eq_true, Bool.not_eq_false']
      rw [List.countP_attach (ys.take i) (fun y2 => (deepDiff y2 yv).isEmpty),
          List.countP_attach xs (fun x2 => (deepDiff x2 yv).isEmpty)]
      exact decide_eq_true h1
    · rintro ⟨⟨j, xv⟩, hmem⟩ -
      have h1 := hR j xv hmem
      simp only [Bool.not_eq_true, Bool.not_eq_false']
      rw [List.countP_attach (xs.take j) (fun x2 => (deepDiff x2 xv).isEmpty),
          List.countP_attach ys (fun y2 => (deepDiff xv y2).isEmpty)]
      exact decide_eq_true h1

theorem deq_arr_iff (xs ys : List Document) :
    deq (.arr xs) (.arr ys) = true ↔
      MatchedAllNew deq xs ys ∧ MatchedAllOld deq xs ys := by
  rw [deq]
  rw [Bool.and_eq_true, List.all_eq_true, List.all_eq_true]
  constructor
  · rintro ⟨hA, hR⟩
    constructor
    · intro i yv hmem
      have h1 := hA ⟨(i, yv), hmem⟩ (List.mem_attach _ _)
      simp only at h1
      rw [List.countP_attach (ys.take i) (fun y2 => deq y2 yv),
          List.countP_attach xs (fun x2 => deq x2 yv)] at h1
      exact of_decide_eq_true h1
    · intro j xv hmem
      have h1 := hR ⟨(j, xv), hmem⟩ (List.mem_attach _ _)
      simp only at h1
      rw [List.countP_attach (xs.take j) (fun x2 => deq x2 xv),
          List.countP_attach ys (fun y2 => deq xv y2)] at h1
      exact of_decide_eq_true h1
  · rintro ⟨hA, hR⟩
    constructor
    · rintro ⟨⟨i, yv⟩, hmem⟩ -
      simp only
      rw [List.countP_attach (ys.take i) (fun y2 => deq y2 yv),
          List.countP_attach xs (fun x2 => deq x2 yv)]
      exact decide_eq_true (hA i yv hmem)
    · rintro ⟨⟨j, xv⟩, hmem⟩ -
      simp only
      rw [List.countP_attach (xs.take j) (fun x2 => deq x2 xv),
          List.countP_attach ys (fun y2 => deq xv y2)]
      exact decide_eq_true (hR j xv hmem)

theorem dd_obj_eq (xs ys : List (String × Document)) :
    deepDiff (.obj xs) (.obj ys) =
      ys.flatMap (objFromNewFn xs)
      ++ (xs.filter (fun p => !(ys.any (fun q => q.1 == p.1)))).map
        (fun p => ⟨.removed, [.key p.1], some p.2, none⟩) := by
  rw [deepDiff]
  refine congrArg₂ (fun u v => u ++ v) ?_ rfl
  have e1 : ys.attach.flatMap (fun q => objFromNewFn xs q.1) =
      ys.flatMap (objFromNewFn xs) := attach_flatMap_val ys (objFromNewFn xs)
  rw [← e1]
  refine List.flatMap_congr (fun kw hm => ?_)
  unfold objNewPart objFromNewFn
  rcases hfind : xs.attach.find? (fun p => p.1.1 == kw.1.1) with _ | p
  · have h2 := attach_find?_val xs (fun p => p.1 == kw.1.1)
    rw [hfind] at h2
    rw [hfind, ← h2]
    rfl
  · have h2 := attach_find?_val xs (fun p => p.1 == kw.1.1)
    rw [hfind] at h2
    rw [hfind, ← h2]
    rfl

theorem dd_obj_empty_iff (xs ys : List (String × Document)) :
    deepDiff (.obj xs) (.obj ys) = [] ↔
      ((∀ kw ∈ ys, ∃ kv, xs.find? (fun p => p.1 == kw.1) = some kv ∧
          deepDiff kv.2 kw.2 = []) ∧
       (∀ p ∈ xs, ys.any (fun q => q.1 == p.1) = true)) := by
  rw [dd_obj_eq]
  simp only [List.append_eq_nil, List.flatMap_eq_nil_iff, List.map_eq_nil_iff,
    List.filter_eq_nil_iff, Bool.not_eq_true, Bool.not_eq_false']
  constructor
  · rintro ⟨hN, hR⟩
    refine ⟨?_, fun p hp => hR p hp⟩
    intro kw hkw
    have h1 := hN kw hkw
    unfold objFromNewFn at h1
    rcases hfind : xs.find? (fun p => p.1 == kw.1) with _ | kv
    · rw [hfind] at h1
      simp at h1
    · rw [hfind] at h1
      simp only [List.map_eq_nil_iff] at h1
      exact ⟨kv, hfind, h1⟩
  · rintro ⟨hN, hR⟩
    refine ⟨?_, fun p hp => hR p hp⟩
    intro kw hkw
    obtain ⟨kv, hfind, hdd⟩ := hN kw hkw
    unfold objFromNewFn
    rw [hfind]
    simp only [List.map_eq_nil_iff]
    exact hdd

theorem deq_obj_iff (xs ys : List (String × Document)) :
    deq (.obj xs) (.obj ys) = true ↔
      ((∀ kw ∈ ys, ∃ kv, xs.find? (fun p => p.1 == kw.1) = some kv ∧
          deq kv.2 kw.2 = true) ∧
       (∀ p ∈ xs, ys.any (fun q => q.1 == p.1) = true)) := by
  rw [deq]
  rw [Bool.and_eq_true, List.all_eq_true, List.all_eq_true]
  constructor
  · rintro ⟨hN, hR⟩
    refine ⟨?_, fun p hp => hR p hp⟩
    intro kw hkw
    obtain ⟨k, w⟩ := kw
    rcases hfind : xs.attach.find? (fun p => p.1.1 == k) with _ | ⟨⟨k2, v⟩, hv⟩
    · have h1 := hN ⟨(k, w), hkw⟩ (List.mem_attach _ _)
      simp only [hfind] at h1
      simp at h1
    · have h1 := hN ⟨(k, w), hkw⟩ (List.mem_attach _ _)
      simp only [hfind] at h1
      refine ⟨(k2, v), ?_, h1⟩
      have h2 := attach_find?_val xs (fun p => p.1 == k)
      rw [hfind] at h2
      exact h2.symm
  · rintro ⟨hN, hR⟩
    refine ⟨?_, fun p hp => hR p hp⟩
    rintro ⟨⟨k, w⟩, hkw⟩ -
    obtain ⟨⟨k2, v⟩, hfindp, hdeq⟩ := hN (k, w) hkw
    rcases hfind : xs.attach.find? (fun p => p.1.1 == k) with _ | ⟨⟨k3, v3⟩, hv3⟩
    · have h2 := attach_find?_val xs (fun p => p.1 == k)
      rw [hfind] at h2
      rw [hfindp] at h2
      simp at h2
    · have h2 := attach_find?_val xs (fun p => p.1 == k)
      rw [hfind] at h2
      rw [hfindp] at h2
      simp only [Option.map_some', Option.some.injEq] at h2
      simp only [hfind]
      rw [show v3 = v from congrArg Prod.snd h2]
      exact hdeq

theorem mem_of_mem_idxFrom {k i : Nat} {y : α} {ys : List α}
    (h : (i, y) ∈ idxFrom k ys) : y ∈ ys := by
  obtain ⟨l₁, l₂, rfl, -, -⟩ := mem_idxFrom_split h
  exact List.mem_append_right l₁ (List.mem_cons_self y l₂)

theorem bool_eq_of_iff {b c : Bool} (h : b = true ↔ c = true) : b = c := by
  rcases b <;> rcases c <;> simp_all

theorem ddEq_eq_true_iff (u v : Document) : ddEq u v = true ↔ deepDiff u v = [] := by
  simp [ddEq, List.isEmpty_iff]

theorem matchedAllNew_congr {E E' : Document → Document → Bool} {xs ys : List Document}
    (h : ∀ u v, sizeOf u + sizeOf v < sizeOf xs + sizeOf ys → E u v = E' u v) :
    MatchedAllNew E xs ys ↔ MatchedAllNew E' xs ys := by
  unfold MatchedAllNew
  refine forall_congr' (fun i => forall_congr' (fun yv => imp_congr_right (fun hm => ?_)))
  have hyv : yv ∈ ys := mem_of_mem_idxFrom hm
  have hyvsz := List.sizeOf_lt_of_mem hyv
  have hxs : 0 < sizeOf xs := by cases xs <;> simp <;> omega
  rw [@List.countP_congr _ (fun y2 => E y2 yv) (fun y2 => E' y2 yv) (ys.take i)
        (fun y2 hy2 => show E y2 yv = true ↔ E' y2 yv = true by
          rw [h y2 yv (by have := sizeOf_pair_lt_of_take hm hy2; omega)]),
      @List.countP_congr _ (fun x2 => E x2 yv) (fun x2 => E' x2 yv) xs
        (fun x2 hx2 => show E x2 yv = true ↔ E' x2 yv = true by
          rw [h x2 yv (by have := List.sizeOf_lt_of_mem hx2; omega)])]

theorem matchedAllOld_congr {E E' : Document → Document → Bool} {xs ys : List Document}
    (h : ∀ u v, sizeOf u + sizeOf v < sizeOf xs + sizeOf ys → E u v = E' u v) :
    MatchedAllOld E xs ys ↔ MatchedAllOld E' xs ys := by
  unfold MatchedAllOld
  refine forall_congr' (fun j => forall_congr' (fun xv => imp_congr_right (fun hm => ?_)))
  have hxv : xv ∈ xs := mem_of_mem_idxFrom hm
  have hxvsz := List.sizeOf_lt_of_mem hxv
  have hys : 0 < sizeOf ys := by cases ys <;> simp <;> omega
  rw [@List.countP_congr _ (fun x2 => E x2 xv) (fun x2 => E' x2 xv) (xs.take j)
        (fun x2 hx2 => show E x2 xv = true ↔ E' x2 xv = true by
          rw [h x2 xv (by have := sizeOf_pair_lt_of_take hm hx2; omega)]),
      @List.countP_congr _ (fun y2 => E xv y2) (fun y2 => E' xv y2) ys
        (fun y2 hy2 => show E xv y2 = true ↔ E' xv y2 = true by
          rw [h xv y2 (by have := List.sizeOf_lt_of_mem hy2; omega)])]

theorem sizeOf_obj_eq (xs : List (String × Document)) :
    sizeOf (Document.obj xs) = 1 + sizeOf xs := by
  simp

theorem sizeOf_arr_eq (xs : List Document) :
    sizeOf (Document.arr xs) = 1 + sizeOf xs := by
  simp

/-- A `DiffReport` is empty exactly when the two documents are structurally
equal under the order-insensitive-array rule. -/
theorem dd_empty_iff_deq (a b : Document) : deepDiff a b = [] ↔ deq a b = true := by
  have H : ∀ n a b, sizeOf a + sizeOf b ≤ n → (deepDiff a b = [] ↔ deq a b = true) := by
    intro n
    induction n using Nat.strong_induction_on with
    | _ n ih =>
      intro a b hn
      cases a with
      | obj xs =>
        cases b with
        | obj ys =>
          rw [dd_obj_empty_iff, deq_obj_iff]
          have hsub : ∀ kw ∈ ys, ∀ kv : String × Document,
              xs.find? (fun p => p.1 == kw.1) = some kv →
              (deepDiff kv.2 kw.2 = [] ↔ deq kv.2 kw.2 = true) := by
            intro kw hkw kv hfind
            have h1 : kv ∈ xs := List.mem_of_find?_eq_some hfind
            have h2 : sizeOf kv.2 < sizeOf (Document.obj xs) := by
              rw [sizeOf_obj_eq]
              have := sizeOf_snd_lt_of_mem_kv (k := kv.1) (v := kv.2) (by simpa using h1)
              omega
            have h3 : sizeOf kw.2 < sizeOf (Document.obj ys) := by
              rw [sizeOf_obj_eq]
              have := sizeOf_snd_lt_of_mem_kv (k := kw.1) (v := kw.2) (by simpa using hkw)
              omega
            exact ih (sizeOf kv.2 + sizeOf kw.2) (by omega) kv.2 kw.2 le_rfl
          constructor
          · rintro ⟨h1, h2⟩
            refine ⟨?_, h2⟩
            intro kw hkw
            obtain ⟨kv, hf, hdd⟩ := h1 kw hkw
            exact ⟨kv, hf, (hsub kw hkw kv hf).1 hdd⟩
          · rintro ⟨h1, h2⟩
            refine ⟨?_, h2⟩
            intro kw hkw
            obtain ⟨kv, hf, hdq⟩ := h1 kw hkw
            exact ⟨kv, hf, (hsub kw hkw kv hf).2 hdq⟩
        | arr ys => simp [deepDiff, deq]
        | str s => simp [deepDiff, deq]
        | num f q => simp [deepDiff, deq]
        | bool u => simp [deepDiff, deq]
        | null => simp [deepDiff, deq]
      | arr xs =>
        cases b with
        | arr ys =>
          rw [dd_arr_empty_iff, deq_arr_iff]
          have hE : ∀ u v, sizeOf u + sizeOf v < sizeOf xs + sizeOf ys → ddEq u v = deq u v := by
            intro u v husz
            have hb : sizeOf (Document.arr xs) + sizeOf (Document.arr ys) ≤ n := hn
            rw [sizeOf_arr_eq, sizeOf_arr_eq] at hb
            exact bool_eq_of_iff ((ddEq_eq_true_iff u v).trans
              (ih (sizeOf u + sizeOf v) (by omega) u v le_rfl))
          exact and_congr (matchedAllNew_congr hE) (matchedAllOld_congr hE)
        | obj ys => simp [deepDiff, deq]
        | str s => simp [deepDiff, deq]
        | num f q => simp [deepDiff, deq]
        | bool u => simp [deepDiff, deq]
        | null => simp [deepDiff, deq]
      | str s =>
        cases b <;> simp [deepDiff, deq]
      | num f q =>
        cases b <;> simp [deepDiff, deq]
      | bool u =>
        cases b <;> simp [deepDiff, deq]
      | null =>
        cases b <;> simp [deepDiff, deq]
  exact H (sizeOf a + sizeOf b) a b le_rfl

theorem wfDoc_obj_iff (xs : List (String × Document)) :
    wfDoc (.obj xs) = true ↔
      (strNodup (xs.map (fun p => p.1)) = true ∧ ∀ p ∈ xs, wfDoc p.2 = true) := by
  rw [wfDoc]
  rw [Bool.and_eq_true, List.all_eq_true]
  refine and_congr Iff.rfl ?_
  constructor
  · intro h p hp
    have h1 := h ⟨p, hp⟩ (List.mem_attach _ _)
    obtain ⟨k, v⟩ := p
    exact h1
  · rintro h ⟨⟨k, v⟩, hm⟩ -
    exact h (k, v) hm

theorem wfDoc_arr_iff (xs : List Document) :
    wfDoc (.arr xs) = true ↔ ∀ x ∈ xs, wfDoc x = true := by
  rw [wfDoc]
  rw [List.all_eq_true]
  constructor
  · intro h x hx
    exact h ⟨x, hx⟩ (List.mem_attach _ _)
  · rintro h ⟨x, hx⟩ -
    exact h x hx

theorem strNodup_iff (l : List String) : strNodup l = true ↔ l.Nodup := by
  induction l with
  | nil => simp [strNodup]
  | cons k ks ih =>
    rw [strNodup, Bool.and_eq_true, List.nodup_cons, ih]
    simp [List.elem_iff]

/-- With unique keys, `find?` on the key of a member returns that member. -/
theorem find?_eq_self_of_nodup {xs : List (String × Document)} {k : String} {v : Document}
    (hnd : strNodup (xs.map (fun p => p.1)) = true) (hm : (k, v) ∈ xs) :
    xs.find? (fun p => p.1 == k) = some (k, v) := by
  induction xs with
  | nil => simp at hm
  | cons p xs ih =>
    rw [List.map_cons, strNodup, Bool.and_eq_true] at hnd
    obtain ⟨hnotin, hnd'⟩ := hnd
    rcases List.mem_cons.1 hm with rfl | hm'
    · simp [List.find?_cons]
    · rw [List.find?_cons]
      have hpk : p.1 ≠ k := by
        intro he
        have hkmem : k ∈ xs.map (fun p => p.1) :=
          List.mem_map.2 ⟨(k, v), hm', rfl⟩
        have hcont : (xs.map (fun p => p.1)).contains k = true := List.elem_iff.2 hkmem
        rw [he, Bool.not_eq_true'] at hnotin
        rw [hnotin] at hcont
        exact Bool.false_ne_true hcont
      have hne : (p.1 == k) = false := by
        rcases hbeq : p.1 == k with _ | _
        · rfl
        · exact absurd (by simpa using hbeq) hpk
      rw [hne]
      exact ih hnd' hm'

/-- The relation `deq` is symmetric on well-formed documents. -/
theorem deq_symm : ∀ a b, wfDoc a = true → wfDoc b = true → deq a b = deq b a := by
  have H : ∀ n a b, sizeOf a + sizeOf b ≤ n → wfDoc a = true → wfDoc b = true →
      deq a b = deq b a := by
    intro n
    induction n using Nat.strong_induction_on with
    | _ n ih =>
      intro a b hn hwa hwb
      cases a with
      | obj xs =>
        cases b with
        | obj ys =>
          obtain ⟨hndx, hwx⟩ := (wfDoc_obj_iff xs).1 hwa
          obtain ⟨hndy, hwy⟩ := (wfDoc_obj_iff ys).1 hwb
          have hb : sizeOf (Document.obj xs) + sizeOf (Document.obj ys) ≤ n := hn
          rw [sizeOf_obj_eq, sizeOf_obj_eq] at hb
          have key : ∀ {as bs : List (String × Document)},
              sizeOf as + sizeOf bs ≤ sizeOf xs + sizeOf ys →
              strNodup (as.map (fun p => p.1)) = true →
              (∀ p ∈ as, wfDoc p.2 = true) → (∀ p ∈ bs, wfDoc p.2 = true) →
              (deq (.obj as) (.obj bs) = true → deq (.obj bs) (.obj as) = true) := by
            intro as bs hsz hnda hwas hwbs h
            obtain ⟨h1, h2⟩ := (deq_obj_iff as bs).1 h
            rw [deq_obj_iff]
            constructor
            · intro kv hkv
              rcases hf : bs.find? (fun p => p.1 == kv.1) with _ | q0
              · exfalso
                have hany := h2 kv hkv
                obtain ⟨q, hq, hqk⟩ := List.any_eq_true.1 hany
                have := List.find?_eq_none.1 hf q hq
                rw [show q.1 = kv.1 from by simpa using hqk] at this
                simp at this
              · have hq0mem : q0 ∈ bs := List.mem_of_find?_eq_some hf
                have hq0k := List.find?_some hf
                have hq0k' : q0.1 = kv.1 := by simpa using hq0k
                obtain ⟨kv', hf', hdq⟩ := h1 q0 hq0mem
                have hfk : as.find? (fun p => p.1 == q0.1) = some (kv.1, kv.2) := by
                  rw [hq0k']
                  exact find?_eq_self_of_nodup hnda (by simpa using hkv)
                rw [hfk] at hf'
                have hkv'eq : kv' = (kv.1, kv.2) := by
                  simpa using hf'.symm
                subst hkv'eq
                refine ⟨q0, hf, ?_⟩
                have hs1 : sizeOf kv.2 < sizeOf as := sizeOf_snd_lt_of_mem_kv (by simpa using hkv)
                have hs2 : sizeOf q0.2 < sizeOf bs :=
                  sizeOf_snd_lt_of_mem_kv (k := q0.1) (v := q0.2) (by simpa using hq0mem)
                have hsymm := ih (sizeOf kv.2 + sizeOf q0.2) (by omega) kv.2 q0.2 le_rfl
                  (hwas kv hkv) (hwbs q0 hq0mem)
                rw [← hsymm]
                exact hdq
            · intro q hq
              obtain ⟨kv', hf', -⟩ := h1 q hq
              have hmem : kv' ∈ as := List.mem_of_find?_eq_some hf'
              have hk := List.find?_some hf'
              exact List.any_eq_true.2 ⟨kv', hmem, hk⟩
          refine bool_eq_of_iff ⟨key le_rfl hndx hwx hwy, key (by omega) hndy hwy hwx⟩
        | arr ys => simp [deq]
        | str s => simp [deq]
        | num g r => simp [deq]
        | bool v => simp [deq]
        | null => simp [deq]
      | arr xs =>
        cases b with
        | arr ys =>
          have hwx := (wfDoc_arr_iff xs).1 hwa
          have hwy := (wfDoc_arr_iff ys).1 hwb
          have hb : sizeOf (Document.arr xs) + sizeOf (Document.arr ys) ≤ n := hn
          rw [sizeOf_arr_eq, sizeOf_arr_eq] at hb
          have hsymm : ∀ u v, u ∈ xs → v ∈ ys → deq u v = deq v u := by
            intro u v hu hv
            have h1 := List.sizeOf_lt_of_mem hu
            have h2 := List.sizeOf_lt_of_mem hv
            exact ih (sizeOf u + sizeOf v) (by omega) u v le_rfl (hwx u hu) (hwy v hv)
          refine bool_eq_of_iff ?_
          rw [deq_arr_iff, deq_arr_iff]
          have e1 : MatchedAllNew deq xs ys ↔ MatchedAllOld deq ys xs := by
            unfold MatchedAllNew MatchedAllOld
            refine forall_congr' (fun i => forall_congr' (fun yv => imp_congr_right (fun hm => ?_)))
            have hyv : yv ∈ ys := mem_of_mem_idxFrom hm
            rw [@List.countP_congr _ (fun x2 => deq x2 yv) (fun x2 => deq yv x2) xs
              (fun x2 hx2 => show deq x2 yv = true ↔ deq yv x2 = true by
                rw [hsymm x2 yv hx2 hyv])]
          have e2 : MatchedAllOld deq xs ys ↔ MatchedAllNew deq ys xs := by
            unfold MatchedAllNew MatchedAllOld
            refine forall_congr' (fun j => forall_congr' (fun xv => imp_congr_right (fun hm => ?_)))
            have hxv : xv ∈ xs := mem_of_mem_idxFrom hm
            rw [@List.countP_congr _ (fun y2 => deq xv y2) (fun y2 => deq y2 xv) ys
              (fun y2 hy2 => show deq xv y2 = true ↔ deq y2 xv = true by
                rw [hsymm xv y2 hxv hy2])]
          constructor
          · rintro ⟨hA, hR⟩
            exact ⟨e2.1 hR, e1.1 hA⟩
          · rintro ⟨hA, hR⟩
            exact ⟨e1.2 hR, e2.2 hA⟩
        | obj ys => simp [deq]
        | str s => simp [deq]
        | num g r => simp [deq]
        | bool v => simp [deq]
        | null => simp [deq]
      | str s =>
        cases b <;> simp [deq]
        case str t => exact eq_comm
      | num f q =>
        cases b <;> simp [deq]
        case num g r => simp [eq_comm]
      | bool u =>
        cases b <;> simp [deq]
        case bool v => exact eq_comm
      | null =>
        cases b <;> simp [deq]
  exact fun a b => H (sizeOf a + sizeOf b) a b le_rfl

theorem idxFrom_split_take {i : Nat} {y : α} {ys : List α}
    (h : (i, y) ∈ idxFrom 0 ys) :
    ∃ l₁ l₂, ys = l₁ ++ y :: l₂ ∧ ys.take i = l₁ := by
  obtain ⟨l₁, l₂, rfl, hlen, -⟩ := mem_idxFrom_split h
  simp only [Nat.sub_zero] at hlen
  refine ⟨l₁, l₂, rfl, ?_⟩
  rw [List.take_append_of_le_length (by omega)]
  rw [← hlen, List.take_length]

/-- The relation `deq` is reflexive on well-formed documents. -/
theorem deq_refl : ∀ a, wfDoc a = true → deq a a = true := by
  have H : ∀ n a, sizeOf a ≤ n → wfDoc a = true → deq a a = true := by
    intro n
    induction n using Nat.strong_induction_on with
    | _ n ih =>
      intro a hn hw
      cases a with
      | obj xs =>
        obtain ⟨hnd, hwx⟩ := (wfDoc_obj_iff xs).1 hw
        have hb : sizeOf (Document.obj xs) ≤ n := hn
        rw [sizeOf_obj_eq] at hb
        rw [deq_obj_iff]
        constructor
        · intro kw hkw
          refine ⟨kw, ?_, ?_⟩
          · exact find?_eq_self_of_nodup hnd (by simpa using hkw)
          · have hs : sizeOf kw.2 < sizeOf xs :=
              sizeOf_snd_lt_of_mem_kv (k := kw.1) (v := kw.2) (by simpa using hkw)
            exact ih (sizeOf kw.2) (by omega) kw.2 le_rfl (hwx kw hkw)
        · intro p hp
          exact List.any_eq_true.2 ⟨p, hp, by simp⟩
      | arr xs =>
        have hwx := (wfDoc_arr_iff xs).1 hw
        have hb : sizeOf (Document.arr xs) ≤ n := hn
        rw [sizeOf_arr_eq] at hb
        have hrefl : ∀ y ∈ xs, deq y y = true := by
          intro y hy
          have := List.sizeOf_lt_of_mem hy
          exact ih (sizeOf y) (by omega) y le_rfl (hwx y hy)
        have hcount : ∀ i yv, (i, yv) ∈ idxFrom 0 xs →
            (xs.take i).countP (fun y2 => deq y2 yv) <
              xs.countP (fun x2 => deq x2 yv) := by
          intro i yv hm
          obtain ⟨l₁, l₂, hsplit, htake⟩ := idxFrom_split_take hm
          rw [htake]
          conv_rhs => rw [hsplit]
          rw [List.countP_append]
          rw [List.countP_cons]
          have : deq yv yv = true := hrefl yv (mem_of_mem_idxFrom hm)
          simp only [this, if_true]
          omega
        rw [deq_arr_iff]
        constructor
        · exact hcount
        · intro j xv hm
          have hxv : xv ∈ xs := mem_of_mem_idxFrom hm
          have hx : xs.countP (fun y2 => deq xv y2) = xs.countP (fun x2 => deq x2 xv) :=
            @List.countP_congr _ (fun y2 => deq xv y2) (fun y2 => deq y2 xv) xs
              (fun y2 hy2 => show deq xv y2 = true ↔ deq y2 xv = true by
                rw [deq_symm xv y2 (hwx xv hxv) (hwx y2 hy2)])
          rw [hx]
          exact hcount j xv hm
      | str s => simp [deq]
      | num f q => simp [deq]
      | bool u => simp [deq]
      | null => simp [deq]
  exact fun a => H (sizeOf a) a le_rfl

/-- Reflexivity of the diff engine: comparing a well-formed document with
itself yields the empty report. -/
theorem dd_refl (a : Document) (h : wfDoc a = true) : deepDiff a a = [] :=
  (dd_empty_iff_deq a a).2 (deq_refl a h)

/-- Structural-equality (empty-diff) is symmetric on well-formed documents. -/
theorem dd_empty_symm (a b : Document) (ha : wfDoc a = true) (hb : wfDoc b = true) :
    (deepDiff a b = []) ↔ (deepDiff b a = []) := by
  rw [dd_empty_iff_deq, dd_empty_iff_deq, deq_symm a b ha hb]

theorem ddEq_refl (a : Document) (h : wfDoc a = true) : ddEq a a = true :=
  (ddEq_eq_true_iff a a).2 (dd_refl a h)

theorem ddEq_symm (a b : Document) (ha : wfDoc a = true) (hb : wfDoc b = true) :
    ddEq a b = ddEq b a :=
  bool_eq_of_iff (((ddEq_eq_true_iff a b).trans (dd_empty_symm a b ha hb)).trans
    (ddEq_eq_true_iff b a).symm)

theorem countP_take_lt_of_self {E : Document → Document → Bool} {xs : List Document}
    {i : Nat} {yv : Document} (hm : (i, yv) ∈ idxFrom 0 xs) (hself : E yv yv = true) :
    (xs.take i).countP (fun y2 => E y2 yv) < xs.countP (fun y2 => E y2 yv) := by
  obtain ⟨l₁, l₂, hsplit, htake⟩ := idxFrom_split_take hm
  rw [htake]
  conv_rhs => rw [hsplit]
  rw [List.countP_append, List.countP_cons]
  simp only [hself, if_true]
  omega

/-- Array order invariance: comparing an array against any permutation of it
yields the empty report. -/
theorem dd_perm_empty (xs ys : List Document) (hwf : wfDoc (Document.arr xs) = true)
    (hperm : xs.Perm ys) : deepDiff (.arr xs) (.arr ys) = [] := by
  have hwx := (wfDoc_arr_iff xs).1 hwf
  have hwy : ∀ y ∈ ys, wfDoc y = true := fun y hy => hwx y (hperm.symm.subset hy)
  rw [dd_arr_empty_iff]
  constructor
  · intro i yv hm
    have hyv : yv ∈ ys := mem_of_mem_idxFrom hm
    have hcnt : xs.countP (fun x2 => ddEq x2 yv) = ys.countP (fun x2 => ddEq x2 yv) :=
      hperm.countP_eq _
    rw [hcnt]
    exact countP_take_lt_of_self hm (ddEq_refl yv (hwy yv hyv))
  · intro j xv hm
    have hxv : xv ∈ xs := mem_of_mem_idxFrom hm
    have hcnt1 : ys.countP (fun y2 => ddEq xv y2) = xs.countP (fun y2 => ddEq xv y2) :=
      hperm.symm.countP_eq _
    have hcnt2 : xs.countP (fun y2 => ddEq xv y2) = xs.countP (fun y2 => ddEq y2 xv) :=
      @List.countP_congr _ (fun y2 => ddEq xv y2) (fun y2 => ddEq y2 xv) xs
        (fun y2 hy2 => show ddEq xv y2 = true ↔ ddEq y2 xv = true by
          rw [ddEq_symm xv y2 (hwx xv hxv) (hwx y2 hy2)])
    rw [hcnt1, hcnt2]
    exact countP_take_lt_of_self hm (ddEq_refl xv (hwx xv hxv))

theorem dd_arr_eq (xs ys : List Document) :
    deepDiff (.arr xs) (.arr ys) =
      ((idxFrom 0 ys).filter (unmatchedNewCond xs ys)).map
        (fun iy => ⟨.added, [.idx iy.1], none, some iy.2⟩)
      ++ ((idxFrom 0 xs).filter (unmatchedOldCond xs ys)).map
        (fun jx => ⟨.removed, [.idx jx.1], some jx.2, none⟩) := by
  rw [deepDiff]
  have e1 := attach_filter_map_val (idxFrom 0 ys) (condAttachNew xs ys)
    (fun iy => (⟨.added, [.idx iy.1], none, some iy.2⟩ : DiffEntry))
  have e1' : (idxFrom 0 ys).filter (condAttachNew xs ys) =
      (idxFrom 0 ys).filter (unmatchedNewCond xs ys) := by
    refine List.filter_congr (fun iy hm => ?_)
    unfold condAttachNew unmatchedNewCond
    rw [List.countP_attach (ys.take iy.1) (fun y2 => (deepDiff y2 iy.2).isEmpty),
        List.countP_attach xs (fun x2 => (deepDiff x2 iy.2).isEmpty)]
  have e2 := attach_filter_map_val (idxFrom 0 xs) (condAttachOld xs ys)
    (fun jx => (⟨.removed, [.idx jx.1], some jx.2, none⟩ : DiffEntry))
  have e2' : (idxFrom 0 xs).filter (condAttachOld xs ys) =
      (idxFrom 0 xs).filter (unmatchedOldCond xs ys) := by
    refine List.filter_congr (fun jx hm => ?_)
    unfold condAttachOld unmatchedOldCond
    rw [List.countP_attach (xs.take jx.1) (fun x2 => (deepDiff x2 jx.2).isEmpty),
        List.countP_attach ys (fun y2 => (deepDiff jx.2 y2).isEmpty)]
  exact congrArg₂ (· ++ ·) (e1.trans (by rw [e1'])) (e2.trans (by rw [e2']))

theorem entriesOfKind_append (k : DiffKind) (l₁ l₂ : List DiffEntry) :
    entriesOfKind k (l₁ ++ l₂) = entriesOfKind k l₁ ++ entriesOfKind k l₂ := by
  unfold entriesOfKind
  rw [List.filter_append, List.map_append]

theorem entriesOfKind_map_same {α : Type} {k : DiffKind} (l : List α) (f : α → DiffEntry)
    (hk : ∀ x, (f x).kind = k) :
    entriesOfKind k (l.map f) = l.map (fun x => (f x).path) := by
  unfold entriesOfKind
  rw [List.filter_map, List.map_map]
  have : l.filter ((fun e => e.kind == k) ∘ f) = l := by
    rw [List.filter_eq_self]
    intro x _
    simp [hk x]
  rw [this]
  rfl

theorem entriesOfKind_map_other {α : Type} {k j : DiffKind} (l : List α) (f : α → DiffEntry)
    (hk : ∀ x, (f x).kind = j) (hne : j ≠ k) :
    entriesOfKind k (l.map f) = [] := by
  unfold entriesOfKind
  rw [List.filter_map]
  have : l.filter ((fun e => e.kind == k) ∘ f) = [] := by
    rw [List.filter_eq_nil_iff]
    intro x _
    simp [hk x, hne]
  rw [this]
  rfl

theorem entriesOfKind_flatMap {α : Type} (k : DiffKind) (l : List α) (f : α → List DiffEntry) :
    entriesOfKind k (l.flatMap f) = l.flatMap (fun x => entriesOfKind k (f x)) := by
  unfold entriesOfKind
  induction l with
  | nil => rfl
  | cons a t ih =>
    rw [List.flatMap_cons, List.filter_append, List.map_append, ih, List.flatMap_cons]

theorem entriesOfKind_map_prepend (k : DiffKind) (e : PathElem) (l : List DiffEntry) :
    entriesOfKind k (l.map (prependPath e)) = (entriesOfKind k l).map (fun p => e :: p) := by
  unfold entriesOfKind
  rw [List.filter_map, List.map_map, List.map_map]
  have : l.filter ((fun d => d.kind == k) ∘ prependPath e) = l.filter (fun d => d.kind == k) := by
    refine List.filter_congr (fun d _ => ?_)
    rfl
  rw [this]
  rfl

theorem flatMap_singleton_eq_map {α β : Type} (l : List α) (h : α → β) :
    l.flatMap (fun x => [h x]) = l.map h := by
  induction l with
  | nil => rfl
  | cons a t ih => rw [List.flatMap_cons, List.map_cons, ih]; rfl

theorem flatMap_perm_congr {α β : Type} {l : List α} {f g : α → List β}
    (h : ∀ a ∈ l, (f a).Perm (g a)) : (l.flatMap f).Perm (l.flatMap g) := by
  induction l with
  | nil => exact List.Perm.refl _
  | cons a t ih =>
    rw [List.flatMap_cons, List.flatMap_cons]
    exact (h a (List.mem_cons_self a t)).append (ih (fun x hx => h x (List.mem_cons_of_mem a hx)))

/-- Split a flatMap along a Boolean predicate, up to permutation. -/
theorem flatMap_perm_filter_split {α β : Type} (l : List α) (p : α → Bool) (f : α → List β) :
    (l.flatMap f).Perm ((l.filter p).flatMap f ++ (l.filter (fun x => !p x)).flatMap f) := by
  have h1 := (List.filter_append_perm p l).symm
  have h2 := h1.flatMap_right f
  rw [List.flatMap_append] at h2
  exact h2

theorem mem_keys_iff_any (ys : List (String × Document)) (k : String) :
    (ys.any (fun q => q.1 == k)) = true ↔ k ∈ ys.map (fun p => p.1) := by
  rw [List.any_eq_true]
  constructor
  · rintro ⟨q, hq, hqk⟩
    exact List.mem_map.2 ⟨q, hq, by simpa using hqk⟩
  · intro h
    obtain ⟨q, hq, rfl⟩ := List.mem_map.1 h
    exact ⟨q, hq, by simp⟩

/-- Additive/subtractive duality, one direction: the added paths of
`deepDiff a b` are a permutation of the removed paths of `deepDiff b a`. -/
theorem dd_dual_added_removed :
    ∀ a b, wfDoc a = true → wfDoc b = true →
      (entriesOfKind .added (deepDiff a b)).Perm
        (entriesOfKind .removed (deepDiff b a)) := by
  have H : ∀ n a b, sizeOf a + sizeOf b ≤ n → wfDoc a = true → wfDoc b = true →
      (entriesOfKind .added (deepDiff a b)).Perm
        (entriesOfKind .removed (deepDiff b a)) := by
    intro n
    induction n using Nat.strong_induction_on with
    | _ n ih =>
      intro a b hn hwa hwb
      cases a with
      | obj xs =>
        cases b with
        | obj ys =>
          obtain ⟨hndx, hwx⟩ := (wfDoc_obj_iff xs).1 hwa
          obtain ⟨hndy, hwy⟩ := (wfDoc_obj_iff ys).1 hwb
          have hb : sizeOf (Document.obj xs) + sizeOf (Document.obj ys) ≤ n := hn
          rw [sizeOf_obj_eq, sizeOf_obj_eq] at hb
          rw [dd_obj_eq xs ys, dd_obj_eq ys xs]
          rw [entriesOfKind_append, entriesOfKind_append]
          rw [entriesOfKind_flatMap, entriesOfKind_flatMap]
          rw [entriesOfKind_map_other (k := .added) (j := .removed) _ _
            (fun x => rfl) (by decide)]
          rw [entriesOfKind_map_same (k := .removed) _ _ (fun x => rfl)]
          rw [List.append_nil]
          -- split the new-side flatMap by key-presence in the old object
          refine (flatMap_perm_filter_split ys (fun q => xs.any (fun p => p.1 == q.1))
            (fun x => entriesOfKind .added (objFromNewFn xs x))).trans ?_
          -- split the old-side flatMap by key-presence in the new object
          refine List.Perm.trans ?_ ((((flatMap_perm_filter_split xs
            (fun q => ys.any (fun p => p.1 == q.1))
            (fun x => entriesOfKind .removed (objFromNewFn ys x))).symm).append
              (List.Perm.refl _)))
          -- the keys only in the new object: added singletons versus removed-side leftovers
          have habsent : ∀ kw ∈ ys.filter (fun x => !(xs.any (fun p => p.1 == x.1))),
              entriesOfKind .added (objFromNewFn xs kw) = [[PathElem.key kw.1]] := by
            intro kw hkw
            obtain ⟨hkwm, hnot⟩ := List.mem_filter.1 hkw
            have hfind : xs.find? (fun p => p.1 == kw.1) = none := by
              rw [List.find?_eq_none]
              intro p hp
              intro hpk
              rw [Bool.not_eq_true'] at hnot
              have hany : xs.any (fun p2 => p2.1 == kw.1) = true :=
                List.any_eq_true.2 ⟨p, hp, hpk⟩
              rw [hnot] at hany
              exact Bool.false_ne_true hany
            unfold objFromNewFn
            rw [hfind]
            rfl
          -- the keys only in the old object contribute nothing on the removed side
          have habsent' : ∀ kv ∈ xs.filter (fun x => !(ys.any (fun p => p.1 == x.1))),
              entriesOfKind .removed (objFromNewFn ys kv) = [] := by
            intro kv hkv
            obtain ⟨hkvm, hnot⟩ := List.mem_filter.1 hkv
            have hfind : ys.find? (fun p => p.1 == kv.1) = none := by
              rw [List.find?_eq_none]
              intro p hp hpk
              rw [Bool.not_eq_true'] at hnot
              have hany : ys.any (fun p2 => p2.1 == kv.1) = true :=
                List.any_eq_true.2 ⟨p, hp, hpk⟩
              rw [hnot] at hany
              exact Bool.false_ne_true hany
            unfold objFromNewFn
            rw [hfind]
            rfl
          have e3 : (ys.filter (fun x => !(xs.any (fun p => p.1 == x.1)))).flatMap
              (fun x => entriesOfKind .added (objFromNewFn xs x)) =
              (ys.filter (fun p => !(xs.any (fun q => q.1 == p.1)))).map
                (fun p => (⟨.removed, [.key p.1], some p.2, none⟩ : DiffEntry).path) := by
            rw [List.flatMap_congr habsent]
            exact flatMap_singleton_eq_map _ _
          have e4 : (xs.filter (fun x => !(ys.any (fun p => p.1 == x.1)))).flatMap
              (fun x => entriesOfKind .removed (objFromNewFn ys x)) = [] := by
            rw [List.flatMap_congr habsent']
            induction xs.filter (fun x => !(ys.any (fun p => p.1 == x.1))) with
            | nil => rfl
            | cons a t ihh => rw [List.flatMap_cons, ihh]; rfl
          rw [e3, e4, List.append_nil]
          refine List.Perm.append ?_ (List.Perm.refl _)
          -- the common keys: reduce both flatMaps to key lists and use the IH
          have hg : ∀ kw ∈ ys.filter (fun q => xs.any (fun p => p.1 == q.1)),
              entriesOfKind .added (objFromNewFn xs kw) = addKeyPaths xs ys kw.1 := by
            intro kw hkw
            obtain ⟨hkwm, hin⟩ := List.mem_filter.1 hkw
            obtain ⟨p, hp, hpk⟩ := List.any_eq_true.1 hin
            have hfy : ys.find? (fun p => p.1 == kw.1) = some (kw.1, kw.2) :=
              find?_eq_self_of_nodup hndy (by simpa using hkwm)
            rcases hfx : xs.find? (fun p => p.1 == kw.1) with _ | kv
            · exfalso
              have := List.find?_eq_none.1 hfx p hp
              exact this hpk
            · unfold objFromNewFn addKeyPaths
              rw [hfx, hfy]
              rw [entriesOfKind_map_prepend]
          have hg' : ∀ kv ∈ xs.filter (fun q => ys.any (fun p => p.1 == q.1)),
              entriesOfKind .removed (objFromNewFn ys kv) = remKeyPaths xs ys kv.1 := by
            intro kv hkv
            obtain ⟨hkvm, hin⟩ := List.mem_filter.1 hkv
            obtain ⟨p, hp, hpk⟩ := List.any_eq_true.1 hin
            have hfx : xs.find? (fun p => p.1 == kv.1) = some (kv.1, kv.2) :=
              find?_eq_self_of_nodup hndx (by simpa using hkvm)
            rcases hfy : ys.find? (fun p => p.1 == kv.1) with _ | kw
            · exfalso
              have := List.find?_eq_none.1 hfy p hp
              exact this hpk
            · unfold objFromNewFn remKeyPaths
              rw [hfx, hfy]
              rw [entriesOfKind_map_prepend]
          rw [List.flatMap_congr hg, List.flatMap_congr hg']
          have e5 : (ys.filter (fun q => xs.any (fun p => p.1 == q.1))).flatMap
              (fun kw => addKeyPaths xs ys kw.1) =
              ((ys.filter (fun q => xs.any (fun p => p.1 == q.1))).map
                (fun p => p.1)).flatMap (addKeyPaths xs ys) :=
            (List.flatMap_map (fun p : String × Document => p.1) (addKeyPaths xs ys) _).symm
          have e6 : (xs.filter (fun q => ys.any (fun p => p.1 == q.1))).flatMap
              (fun kv => remKeyPaths xs ys kv.1) =
              ((xs.filter (fun q => ys.any (fun p => p.1 == q.1))).map
                (fun p => p.1)).flatMap (remKeyPaths xs ys) :=
            (List.flatMap_map (fun p : String × Document => p.1) (remKeyPaths xs ys) _).symm
          rw [e5, e6]
          -- the two key lists are permutations of one another
          have hky : ((ys.filter (fun q => xs.any (fun p => p.1 == q.1))).map
              (fun p => p.1)).Perm
              ((xs.filter (fun q => ys.any (fun p => p.1 == q.1))).map (fun p => p.1)) := by
            have hsub1 : ((ys.filter (fun q => xs.any (fun p => p.1 == q.1))).map
                (fun p => p.1)).Sublist (ys.map (fun p => p.1)) :=
              List.Sublist.map _ (List.filter_sublist ys)
            have hsub2 : ((xs.filter (fun q => ys.any (fun p => p.1 == q.1))).map
                (fun p => p.1)).Sublist (xs.map (fun p => p.1)) :=
              List.Sublist.map _ (List.filter_sublist xs)
            have hnd1 := List.Nodup.sublist hsub1 ((strNodup_iff _).1 hndy)
            have hnd2 := List.Nodup.sublist hsub2 ((strNodup_iff _).1 hndx)
            rw [List.perm_ext_iff_of_nodup hnd1 hnd2]
            intro k
            constructor
            · intro hk
              obtain ⟨q, hq, rfl⟩ := List.mem_map.1 hk
              obtain ⟨hqm, hin⟩ := List.mem_filter.1 hq
              obtain ⟨p, hp, hpk⟩ := List.any_eq_true.1 hin
              refine List.mem_map.2 ⟨p, List.mem_filter.2 ⟨hp, ?_⟩, by simpa using hpk⟩
              refine List.any_eq_true.2 ⟨q, hqm, ?_⟩
              have : p.1 = q.1 := by simpa using hpk
              simp [this]
            · intro hk
              obtain ⟨q, hq, rfl⟩ := List.mem_map.1 hk
              obtain ⟨hqm, hin⟩ := List.mem_filter.1 hq
              obtain ⟨p, hp, hpk⟩ := List.any_eq_true.1 hin
              refine List.mem_map.2 ⟨p, List.mem_filter.2 ⟨hp, ?_⟩, by simpa using hpk⟩
              refine List.any_eq_true.2 ⟨q, hqm, ?_⟩
              have : p.1 = q.1 := by simpa using hpk
              simp [this]
          -- pointwise duality on the shared keys, from the induction hypothesis
          have hpt : ∀ k ∈ (ys.filter (fun q => xs.any (fun p => p.1 == q.1))).map
              (fun p => p.1),
              (addKeyPaths xs ys k).Perm (remKeyPaths xs ys k) := by
            intro k hk
            obtain ⟨q, hq, rfl⟩ := List.mem_map.1 hk
            obtain ⟨hqm, hin⟩ := List.mem_filter.1 hq
            obtain ⟨p, hp, hpk⟩ := List.any_eq_true.1 hin
            rcases hfx : xs.find? (fun r => r.1 == q.1) with _ | kv
            · exfalso
              exact (List.find?_eq_none.1 hfx p hp) hpk
            · rcases hfy : ys.find? (fun r => r.1 == q.1) with _ | kw
              · exfalso
                have hq1 : (q.1 == q.1) = true := by simp
                exact (List.find?_eq_none.1 hfy q hqm) hq1
              · unfold addKeyPaths remKeyPaths
                rw [hfx, hfy]
                refine List.Perm.map _ ?_
                have hkvm : kv ∈ xs := List.mem_of_find?_eq_some hfx
                have hkwm : kw ∈ ys := List.mem_of_find?_eq_some hfy
                have hs1 : sizeOf kv.2 < sizeOf xs :=
                  sizeOf_snd_lt_of_mem_kv (k := kv.1) (v := kv.2) (by simpa using hkvm)
                have hs2 : sizeOf kw.2 < sizeOf ys :=
                  sizeOf_snd_lt_of_mem_kv (k := kw.1) (v := kw.2) (by simpa using hkwm)
                exact ih (sizeOf kv.2 + sizeOf kw.2) (by omega) kv.2 kw.2 le_rfl
                  (hwx kv hkvm) (hwy kw hkwm)
          exact (flatMap_perm_congr hpt).trans (hky.flatMap_right (remKeyPaths xs ys))
        | arr ys => simp [deepDiff, entriesOfKind]
        | str s => simp [deepDiff, entriesOfKind]
        | num g r => simp [deepDiff, entriesOfKind]
        | bool v => simp [deepDiff, entriesOfKind]
        | null => simp [deepDiff, entriesOfKind]
      | arr xs =>
        cases b with
        | arr ys =>
          have hwx := (wfDoc_arr_iff xs).1 hwa
          have hwy := (wfDoc_arr_iff ys).1 hwb
          rw [dd_arr_eq xs ys, dd_arr_eq ys xs]
          rw [entriesOfKind_append, entriesOfKind_append]
          rw [entriesOfKind_map_same (k := .added) _ _ (fun x => rfl)]
          rw [entriesOfKind_map_other (k := .added) (j := .removed) _ _
            (fun x => rfl) (by decide)]
          rw [entriesOfKind_map_other (k := .removed) (j := .added) _ _
            (fun x => rfl) (by decide)]
          rw [entriesOfKind_map_same (k := .removed) _ _ (fun x => rfl)]
          rw [List.append_nil, List.nil_append]
          have hfeq : (idxFrom 0 ys).filter (unmatchedNewCond xs ys) =
              (idxFrom 0 ys).filter (unmatchedOldCond ys xs) := by
            refine List.filter_congr (fun iy hm => ?_)
            unfold unmatchedNewCond unmatchedOldCond
            have hyv : iy.2 ∈ ys := by
              refine mem_of_mem_idxFrom (k := 0) (i := iy.1) ?_
              simpa using hm
            have hcross : xs.countP (fun x2 => (deepDiff x2 iy.2).isEmpty) =
                xs.countP (fun y2 => (deepDiff iy.2 y2).isEmpty) :=
              @List.countP_congr _ (fun x2 => (deepDiff x2 iy.2).isEmpty)
                (fun y2 => (deepDiff iy.2 y2).isEmpty) xs
                (fun x2 hx2 => show ddEq x2 iy.2 = true ↔ ddEq iy.2 x2 = true by
                  rw [ddEq_symm x2 iy.2 (hwx x2 hx2) (hwy iy.2 hyv)])
            rw [hcross]
          rw [hfeq]
        | obj ys => simp [deepDiff, entriesOfKind]
        | str s => simp [deepDiff, entriesOfKind]
        | num g r => simp [deepDiff, entriesOfKind]
        | bool v => simp [deepDiff, entriesOfKind]
        | null => simp [deepDiff, entriesOfKind]
      | str s =>
        cases b <;> simp [deepDiff, entriesOfKind]
        case str t =>
          by_cases hst : s = t
          · simp [hst]
          · have hts : ¬ t = s := fun h => hst h.symm
            simp [hst, hts]
      | num f q =>
        cases b <;> simp [deepDiff, entriesOfKind]
        case num g r =>
          by_cases hqr : q = r
          · simp [hqr]
          · have hrq : ¬ r = q := fun h => hqr h.symm
            simp [hqr, hrq]
      | bool u =>
        cases b <;> simp [deepDiff, entriesOfKind]
        case bool v =>
          by_cases huv : u = v
          · simp [huv]
          · have hvu : ¬ v = u := fun h => huv h.symm
            simp [huv, hvu]
      | null =>
        cases b <;> simp [deepDiff, entriesOfKind]
  exact fun a b => H (sizeOf a + sizeOf b) a b le_rfl

/-- When the node kinds differ, the comparison emits exactly one
`TypeChanged` entry at the current path and does not recurse. -/
theorem dd_typeChanged (a b : Document) (h : kindOf a ≠ kindOf b) :
    deepDiff a b = [⟨.typeChanged, [], some a, some b⟩] := by
  cases a <;> cases b <;> first
    | (exact absurd rfl h)
    | simp [deepDiff]

theorem digitChar_isDigit {d : Nat} (h : d ≤ 9) : (digitChar d).isDigit = true := by
  interval_cases d <;> decide

theorem digitVal_digitChar {d : Nat} (h : d ≤ 9) : digitVal (digitChar d) = d := by
  interval_cases d <;> decide

theorem takeDigits_pad2 (n : Nat) (h : n ≤ 99) (rest : List Char) :
    takeDigits 2 (pad2 n ++ rest) = some (n, rest) := by
  have h1 : n / 10 % 10 ≤ 9 := Nat.le_of_lt_succ (Nat.mod_lt _ (by omega))
  have h2 : n % 10 ≤ 9 := Nat.le_of_lt_succ (Nat.mod_lt _ (by omega))
  simp only [pad2, List.cons_append, List.nil_append, takeDigits,
    digitChar_isDigit h1, digitChar_isDigit h2, if_true, Option.map_some',
    digitVal_digitChar h1, digitVal_digitChar h2]
  have h3 : n / 10 % 10 = n / 10 := Nat.mod_eq_of_lt (by omega)
  rw [h3]
  have h4 : n / 10 * 10 ^ 1 + (n % 10 * 10 ^ 0 + 0) = n := by
    have := Nat.div_add_mod n 10
    simp [pow_succ]
    omega
  rw [h4]
  rfl

theorem takeDigits_pad4 (n : Nat) (h : n ≤ 9999) (rest : List Char) :
    takeDigits 4 (pad4 n ++ rest) = some (n, rest) := by
  have h1 : n / 1000 % 10 ≤ 9 := Nat.le_of_lt_succ (Nat.mod_lt _ (by omega))
  have h2 : n / 100 % 10 ≤ 9 := Nat.le_of_lt_succ (Nat.mod_lt _ (by omega))
  have h3 : n / 10 % 10 ≤ 9 := Nat.le_of_lt_succ (Nat.mod_lt _ (by omega))
  have h4 : n % 10 ≤ 9 := Nat.le_of_lt_succ (Nat.mod_lt _ (by omega))
  simp only [pad4, List.cons_append, List.nil_append, takeDigits,
    digitChar_isDigit h1, digitChar_isDigit h2, digitChar_isDigit h3,
    digitChar_isDigit h4, if_true, Option.map_some', digitVal_digitChar h1,
    digitVal_digitChar h2, digitVal_digitChar h3, digitVal_digitChar h4]
  have h5 : n / 1000 % 10 = n / 1000 := Nat.mod_eq_of_lt (by omega)
  rw [h5]
  have h6 : n / 1000 * 10 ^ 3 + (n / 100 % 10 * 10 ^ 2 +
      (n / 10 % 10 * 10 ^ 1 + (n % 10 * 10 ^ 0 + 0))) = n := by
    have e1 := Nat.div_add_mod n 10
    have e2 := Nat.div_add_mod (n / 10) 10
    have e3 := Nat.div_add_mod (n / 100) 10
    have e4 : n / 10 / 10 = n / 100 := by
      rw [Nat.div_div_eq_div_mul]
    have e5 : n / 100 / 10 = n / 1000 := by
      rw [Nat.div_div_eq_div_mul]
    simp [pow_succ]
    omega
  rw [h6]
  rfl

theorem daysInMonth_le_31 (y m : Nat) : daysInMonth y m ≤ 31 := by
  unfold daysInMonth
  split
  · split <;> omega
  · split <;> omega

theorem parseFields_cons_of (f : FieldSpec) (fs : List FieldSpec) (cs : List Char)
    (n : Nat) (rest : List Char) (vs : List Nat)
    (htake : takeDigits 2 cs = some (n, rest)) (htwo : f.two n = true)
    (hrec : parseFields fs rest = some vs) :
    parseFields (f :: fs) cs = some (n :: vs) := by
  rw [parseFields.eq_def]
  simp only [htake, htwo, if_true, hrec, Option.map_some', Option.some_orElse]

theorem takeDigits_pad2_nil (n : Nat) (h : n ≤ 99) :
    takeDigits 2 (pad2 n) = some (n, []) := by
  have := takeDigits_pad2 n h []
  rwa [List.append_nil] at this

/-- Round trip: `strptime` inverts `strftime` on every valid timestamp. -/
theorem strptime_fmtDT (t : DT) (h : dtValid t = true) :
    strptimeYmdHMS (fmtDT t) = some t := by
  unfold dtValid at h
  simp only [Bool.and_eq_true, decide_eq_true_eq] at h
  obtain ⟨⟨⟨⟨⟨⟨⟨⟨hy1, hy2⟩, hm1⟩, hm2⟩, hd1⟩, hd2⟩, hh⟩, hmin⟩, hsec⟩ := h
  have hd31 : t.day ≤ 31 := le_trans hd2 (daysInMonth_le_31 _ _)
  have hps : parseFields
      [⟨fun v => decide (1 ≤ v) && decide (v ≤ 12), fun v => decide (1 ≤ v)⟩,
       ⟨fun v => decide (1 ≤ v) && decide (v ≤ 31), fun v => decide (1 ≤ v)⟩,
       ⟨fun v => decide (v ≤ 23), fun _ => true⟩,
       ⟨fun v => decide (v ≤ 59), fun _ => true⟩,
       ⟨fun v => decide (v ≤ 61), fun _ => true⟩]
      (pad2 t.month ++ (pad2 t.day ++ (pad2 t.hour ++ (pad2 t.minute ++ pad2 t.second))))
      = some [t.month, t.day, t.hour, t.minute, t.second] := by
    refine parseFields_cons_of _ _ _ _ _ _ (takeDigits_pad2 t.month (by omega) _)
      (by simp only [Bool.and_eq_true, decide_eq_true_eq]; exact ⟨hm1, hm2⟩) ?_
    refine parseFields_cons_of _ _ _ _ _ _ (takeDigits_pad2 t.day (by omega) _)
      (by simp only [Bool.and_eq_true, decide_eq_true_eq]; exact ⟨hd1, hd31⟩) ?_
    refine parseFields_cons_of _ _ _ _ _ _ (takeDigits_pad2 t.hour (by omega) _)
      (by simp only [decide_eq_true_eq]; omega) ?_
    refine parseFields_cons_of _ _ _ _ _ _ (takeDigits_pad2 t.minute (by omega) _)
      (by simp only [decide_eq_true_eq]; omega) ?_
    refine parseFields_cons_of _ _ _ _ _ _ (takeDigits_pad2_nil t.second (by omega))
      (by simp only [decide_eq_true_eq]; omega) rfl
  unfold strptimeYmdHMS fmtDT
  rw [List.append_assoc, List.append_assoc, List.append_assoc, List.append_assoc]
  simp only [takeDigits_pad4 t.year hy2, hps]
  rw [if_pos ⟨hy1, hd2, hsec⟩]

theorem readFile_writeFile_self (d : FileDir) (name : List Char) (c : Document) :
    readFile (writeFile d name c) name = some c := by
  unfold readFile writeFile
  rw [List.find?_cons_of_pos _ (by simp)]
  rfl

theorem readFile_writeFile_other (d : FileDir) (name m : List Char) (c : Document)
    (h : m ≠ name) : readFile (writeFile d name c) m = readFile d m := by
  unfold readFile writeFile
  rw [List.find?_cons_of_neg _ (by simp [Ne.symm h])]
  congr 1
  induction d with
  | nil => rfl
  | cons p rest ih =>
    by_cases hp : p.1 = name
    · rw [List.filter_cons_of_neg (by simp [hp])]
      rw [List.find?_cons_of_neg _ (by simp [hp]; exact fun he => h he.symm)]
      exact ih
    · rw [List.filter_cons_of_pos (by simp [hp])]
      by_cases hm : p.1 = m
      · rw [List.find?_cons_of_pos _ (by simp [hm]), List.find?_cons_of_pos _ (by simp [hm])]
      · rw [List.find?_cons_of_neg _ (by simp [hm]), List.find?_cons_of_neg _ (by simp [hm])]
        exact ih

theorem fmtDT_length (t : DT) : (fmtDT t).length = 14 := rfl

theorem snapName_eq (base : List Char) (t : DT) :
    snapName base t = (base ++ '_' :: fmtDT t) ++ ".json".toList := by
  unfold snapName
  simp [List.append_assoc]

theorem isPrefixOf_append (l r : List Char) : l.isPrefixOf (l ++ r) = true := by
  induction l with
  | nil => simp [List.isPrefixOf]
  | cons c cs ih => simp [List.isPrefixOf, ih]

theorem snapName_startsWith (base : List Char) (t : DT) :
    base.isPrefixOf (snapName base t) = true := by
  unfold snapName
  exact isPrefixOf_append base ('_' :: (fmtDT t ++ ".json".toList))

theorem snapName_suffix (base : List Char) (t : DT) :
    ".json".toList.isSuffixOf (snapName base t) = true := by
  rw [List.isSuffixOf_iff_suffix]
  exact ⟨base ++ '_' :: fmtDT t, (snapName_eq base t).symm⟩

theorem sliceTs_snapName (base : List Char) (t : DT) :
    sliceTs base (snapName base t) = fmtDT t := by
  unfold sliceTs
  rw [snapName_eq]
  have hlen : ((base ++ '_' :: fmtDT t) ++ ".json".toList).length - 5 =
      (base ++ '_' :: fmtDT t).length := by
    simp [fmtDT_length]
  rw [hlen, List.take_left]
  have : base ++ '_' :: fmtDT t = (base ++ ['_']) ++ fmtDT t := by
    simp [List.append_assoc]
  rw [this]
  have hlen2 : (base ++ ['_']).length = base.length + 1 := by simp
  rw [← hlen2, List.drop_left]

theorem getLatestStep_snap_none (base : List Char) (s e : Option DT) (t : DT)
    (hv : dtValid t = true) :
    getLatestStep base s e none (snapName base t) =
      (if inRange s e t = true then some (t, snapName base t) else none) := by
  unfold getLatestStep
  rw [snapName_startsWith, snapName_suffix]
  simp only [Bool.and_self, if_true]
  rw [sliceTs_snapName, strptime_fmtDT t hv]
  rcases hr : inRange s e t with _ | _ <;> simp [hr]

theorem getLatestStep_snap_some (base : List Char) (s e : Option DT) (t lt : DT)
    (fn : List Char) (hv : dtValid t = true) :
    getLatestStep base s e (some (lt, fn)) (snapName base t) =
      (if (inRange s e t && decide (dtKey lt < dtKey t)) = true
       then some (t, snapName base t) else some (lt, fn)) := by
  unfold getLatestStep
  rw [snapName_startsWith, snapName_suffix]
  simp only [Bool.and_self, if_true]
  rw [sliceTs_snapName, strptime_fmtDT t hv]

theorem foldl_getLatest_correct (base : List Char) (s e : Option DT) :
    ∀ (tss : List DT), (∀ t ∈ tss, dtValid t = true) →
      (((tss.map (snapName base)).foldl (getLatestStep base s e) none = none ∧
        ∀ t ∈ tss, inRange s e t = false) ∨
       (∃ t, t ∈ tss ∧ inRange s e t = true ∧
         (tss.map (snapName base)).foldl (getLatestStep base s e) none =
           some (t, snapName base t) ∧
         ∀ u ∈ tss, inRange s e u = true → dtKey u ≤ dtKey t)) := by
  intro tss
  induction tss using List.reverseRecOn with
  | nil => intro _; left; exact ⟨rfl, by simp⟩
  | append_singleton l t0 ih =>
    intro hval
    have hvl : ∀ t ∈ l, dtValid t = true := fun t ht => hval t (by simp [ht])
    have hv0 : dtValid t0 = true := hval t0 (by simp)
    rw [List.map_append, List.foldl_append]
    simp only [List.map_cons, List.map_nil, List.foldl_cons, List.foldl_nil]
    rcases ih hvl with ⟨hres, hnone⟩ | ⟨t, htm, htr, hres, hmax⟩
    · rw [hres, getLatestStep_snap_none base s e t0 hv0]
      rcases hir : inRange s e t0 with _ | _
      · left
        rw [if_neg (by simp)]
        refine ⟨rfl, ?_⟩
        intro u hu
        rcases List.mem_append.1 hu with hu | hu
        · exact hnone u hu
        · simp only [List.mem_singleton] at hu
          subst hu
          exact hir
      · right
        rw [if_pos rfl]
        refine ⟨t0, by simp, hir, rfl, ?_⟩
        intro u hu hur
        rcases List.mem_append.1 hu with hu | hu
        · rw [hnone u hu] at hur
          exact absurd hur Bool.false_ne_true
        · simp only [List.mem_singleton] at hu
          subst hu
          exact le_rfl
    · rw [hres, getLatestStep_snap_some base s e t0 t _ hv0]
      by_cases hcond : (inRange s e t0 && decide (dtKey t < dtKey t0)) = true
      · right
        rw [if_pos hcond]
        rw [Bool.and_eq_true, decide_eq_true_eq] at hcond
        obtain ⟨hir0, hlt⟩ := hcond
        refine ⟨t0, by simp, hir0, rfl, ?_⟩
        intro u hu hur
        rcases List.mem_append.1 hu with hu | hu
        · exact le_trans (hmax u hu hur) (le_of_lt hlt)
        · simp only [List.mem_singleton] at hu
          subst hu
          exact le_rfl
      · right
        rw [if_neg hcond]
        refine ⟨t, List.mem_append_left _ htm, htr, rfl, ?_⟩
        intro u hu hur
        rcases List.mem_append.1 hu with hu | hu
        · exact hmax u hu hur
        · simp only [List.mem_singleton] at hu
          subst hu
          rw [Bool.and_eq_true, decide_eq_true_eq] at hcond
          push_neg at hcond
          have := hcond hur
          omega

/-- Correctness of the latest-in-range query on a directory holding exactly
the snapshots saved at timestamps `tss`: it returns `none` when no snapshot
is in range (in particular on an empty store), and otherwise the path of an
in-range snapshot whose timestamp dominates every other in-range one. -/
theorem get_latest_correct (dir base : List Char) (tss : List DT) (s e : Option DT)
    (hval : ∀ t ∈ tss, dtValid t = true) :
    ((∀ t ∈ tss, inRange s e t = false) →
      get_latest_spec_in_range dir (tss.map (snapName base)) base s e = none) ∧
    (∀ t0 ∈ tss, inRange s e t0 = true →
      ∃ t, t ∈ tss ∧ inRange s e t = true ∧
        get_latest_spec_in_range dir (tss.map (snapName base)) base s e =
          some (dir ++ '/' :: snapName base t) ∧
        ∀ u ∈ tss, inRange s e u = true → dtKey u ≤ dtKey t) := by
  unfold get_latest_spec_in_range
  rcases foldl_getLatest_correct base s e tss hval with ⟨hres, hnone⟩ |
    ⟨t, htm, htr, hres, hmax⟩
  · constructor
    · intro _
      rw [hres]
      rfl
    · intro t0 ht0 hir
      rw [hnone t0 ht0] at hir
      exact absurd hir Bool.false_ne_true
  · constructor
    · intro hall
      rw [hall t htm] at htr
      exact absurd htr Bool.false_ne_true
    · intro t0 ht0 hir
      refine ⟨t, htm, htr, ?_, hmax⟩
      rw [hres]
      rfl

theorem getLatestStep_skip (base : List Char) (s e : Option DT)
    (acc : Option (DT × List Char)) (fn : List Char)
    (h : eligibleFile base fn = false) : getLatestStep base s e acc fn = acc := by
  unfold eligibleFile at h
  unfold getLatestStep
  rcases hpre : (base.isPrefixOf fn && ".json".toList.isSuffixOf fn) with _ | _
  · rw [if_neg (by simp [hpre])]
  · rw [if_pos (by simp [hpre])]
    rcases hts : strptimeYmdHMS (sliceTs base fn) with _ | t
    · rfl
    · exfalso
      rw [hpre, hts] at h
      simp at h

/-- Dropping the non-eligible files from the listing does not change the
result of the latest-in-range query. -/
theorem get_latest_filter_eligible (dir : List Char) (listing : List (List Char))
    (base : List Char) (s e : Option DT) :
    get_latest_spec_in_range dir listing base s e =
      get_latest_spec_in_range dir (listing.filter (eligibleFile base)) base s e := by
  unfold get_latest_spec_in_range
  congr 1
  have H : ∀ (acc : Option (DT × List Char)),
      listing.foldl (getLatestStep base s e) acc =
        (listing.filter (eligibleFile base)).foldl (getLatestStep base s e) acc := by
    induction listing with
    | nil => intro acc; rfl
    | cons fn rest ih =>
      intro acc
      rcases hel : eligibleFile base fn with _ | _
      · rw [List.filter_cons_of_neg (by simp [hel])]
        rw [List.foldl_cons, getLatestStep_skip base s e acc fn hel]
        exact ih acc
      · rw [List.filter_cons_of_pos hel]
        rw [List.foldl_cons, List.foldl_cons]
        exact ih _
  exact H none

/-- C1: for every Array document and every permutation of its elements,
comparing the two yields an empty DiffReport: array comparison is
order-insensitive, treating each array as a multiset of element-subtrees.
(`compare(a, a')` is `deepDiff a a'`, i.e. `compare_specs a' a`.) -/
theorem claim_c1_array_order_invariance (xs ys : List Document)
    (hwf : wfDoc (.arr xs) = true) (hperm : xs.Perm ys) :
    deepDiff (.arr xs) (.arr ys) = [] ∧ compare_specs (.arr ys) (.arr xs) = [] :=
  ⟨dd_perm_empty xs ys hwf hperm, dd_perm_empty xs ys hwf hperm⟩

theorem claim_c1_witness :
    deepDiff (.arr [.str "a", .str "b"]) (.arr [.str "b", .str "a"]) = [] ∧
    compare_specs (.arr [.str "b", .str "a"]) (.arr [.str "a", .str "b"]) = [] :=
  claim_c1_array_order_invariance [.str "a", .str "b"] [.str "b", .str "a"]
    (by simp [wfDoc]) (List.Perm.swap (Document.str "b") (Document.str "a") [])

/-- C2: scalar numeric comparison is type-agnostic: a number tagged as an
integer and one tagged as a float compare equal whenever their values agree;
in particular `compare({"x": 1}, {"x": 1.0})` yields an empty DiffReport. -/
theorem claim_c2_numeric_type_agnostic :
    (∀ (f1 f2 : Bool) (q : ℚ), deepDiff (.num f1 q) (.num f2 q) = []) ∧
    deepDiff (.obj [("x", .num false 1)]) (.obj [("x", .num true 1)]) = [] ∧
    compare_specs (.obj [("x", .num true 1)]) (.obj [("x", .num false 1)]) = [] := by
  refine ⟨?_, ?_, ?_⟩
  · intro f1 f2 q
    simp [deepDiff]
  · simp [deepDiff, objNewPart]
  · simp [compare_specs, deepDiff, objNewPart]

/-- C7: comparing any well-formed document with itself yields an empty
DiffReport, and in general a DiffReport is empty exactly when the two
documents are structurally equal under the order-insensitive-array rule
(`deq`). -/
theorem claim_c7_empty_iff_structural_eq :
    ∀ a b : Document,
      (wfDoc a = true → deepDiff a a = []) ∧
      (deepDiff a b = [] ↔ deq a b = true) :=
  fun a b => ⟨fun h => dd_refl a h, dd_empty_iff_deq a b⟩

theorem claim_c7_witness :
    deepDiff (.obj [("x", .num false 1)]) (.obj [("x", .num false 1)]) = [] ∧
    (deepDiff (.str "a") (.str "b") = [] ↔ deq (.str "a") (.str "b") = true) :=
  ⟨(claim_c7_empty_iff_structural_eq (.obj [("x", .num false 1)])
      (.obj [("x", .num false 1)])).1 (by simp [wfDoc, strNodup]),
   (claim_c7_empty_iff_structural_eq (.str "a") (.str "b")).2⟩

/-- C8: additive/subtractive duality: for all well-formed documents, the
multiset of `Added` paths of `deepDiff old new` equals the multiset of
`Removed` paths of `deepDiff new old`, and vice versa. -/
theorem claim_c8_duality (a b : Document)
    (ha : wfDoc a = true) (hb : wfDoc b = true) :
    ((entriesOfKind .added (deepDiff a b) : Multiset (List PathElem)) =
      (entriesOfKind .removed (deepDiff b a) : Multiset (List PathElem))) ∧
    ((entriesOfKind .removed (deepDiff a b) : Multiset (List PathElem)) =
      (entriesOfKind .added (deepDiff b a) : Multiset (List PathElem))) :=
  ⟨Multiset.coe_eq_coe.2 (dd_dual_added_removed a b ha hb),
   Multiset.coe_eq_coe.2 (dd_dual_added_removed b a hb ha).symm⟩

theorem claim_c8_witness :
    ((entriesOfKind .added (deepDiff (.obj [("x", .num false 1)]) (.obj [])) :
        Multiset (List PathElem)) =
      (entriesOfKind .removed (deepDiff (.obj []) (.obj [("x", .num false 1)])) :
        Multiset (List PathElem))) :=
  (claim_c8_duality (.obj [("x", .num false 1)]) (.obj [])
    (by simp [wfDoc, strNodup]) (by simp [wfDoc, strNodup])).1

/-- C9: type-change precedence: when the node kinds differ at a path, the
comparison emits exactly one `TypeChanged` entry at that path and nothing
for the subtree; in particular `compare({"x": {"a":1}}, {"x": [1]})` yields
exactly one `TypeChanged` entry at path `["x"]`. -/
theorem claim_c9_type_change_precedence :
    (∀ a b : Document, kindOf a ≠ kindOf b →
      deepDiff a b = [⟨.typeChanged, [], some a, some b⟩]) ∧
    deepDiff (.obj [("x", .obj [("a", .num false 1)])]) (.obj [("x", .arr [.num false 1])]) =
      [⟨.typeChanged, [.key "x"], some (.obj [("a", .num false 1)]),
        some (.arr [.num false 1])⟩] :=
  ⟨dd_typeChanged, by simp [deepDiff, objNewPart, prependPath]⟩

theorem claim_c9_witness :
    deepDiff (.obj []) (.arr []) =
      [⟨.typeChanged, [], some (.obj []), some (.arr [])⟩] :=
  claim_c9_type_change_precedence.1 (.obj []) (.arr []) (by decide)

/-- C3: `query_latest` returns the stored snapshot (as its file path) with
the greatest timestamp `t` satisfying `start <= t <= end`, each bound
optional, and `none` when no stored snapshot is in range — including when
nothing was ever saved for the resource (empty listing). -/
theorem claim_c3_query_latest (dir base : List Char) (tss : List DT)
    (s e : Option DT) (hval : ∀ t ∈ tss, dtValid t = true) :
    ((∀ t ∈ tss, inRange s e t = false) →
      get_latest_spec_in_range dir (tss.map (snapName base)) base s e = none) ∧
    (∀ t0 ∈ tss, inRange s e t0 = true →
      ∃ t, t ∈ tss ∧ inRange s e t = true ∧
        get_latest_spec_in_range dir (tss.map (snapName base)) base s e =
          some (dir ++ '/' :: snapName base t) ∧
        ∀ u ∈ tss, inRange s e u = true → dtKey u ≤ dtKey t) :=
  get_latest_correct dir base tss s e hval

theorem claim_c3_witness :
    ∃ t, t ∈ [(⟨2023, 5, 1, 0, 0, 0⟩ : DT), ⟨2023, 5, 2, 0, 0, 0⟩, ⟨2023, 6, 1, 0, 0, 0⟩] ∧
      inRange (some ⟨2023, 5, 1, 0, 0, 0⟩) (some ⟨2023, 5, 2, 0, 0, 0⟩) t = true ∧
      get_latest_spec_in_range "wd".toList
        ([(⟨2023, 5, 1, 0, 0, 0⟩ : DT), ⟨2023, 5, 2, 0, 0, 0⟩,
          ⟨2023, 6, 1, 0, 0, 0⟩].map (snapName "svc".toList)) "svc".toList
        (some ⟨2023, 5, 1, 0, 0, 0⟩) (some ⟨2023, 5, 2, 0, 0, 0⟩) =
        some ("wd".toList ++ '/' :: snapName "svc".toList t) ∧
      ∀ u ∈ [(⟨2023, 5, 1, 0, 0, 0⟩ : DT), ⟨2023, 5, 2, 0, 0, 0⟩, ⟨2023, 6, 1, 0, 0, 0⟩],
        inRange (some ⟨2023, 5, 1, 0, 0, 0⟩) (some ⟨2023, 5, 2, 0, 0, 0⟩) u = true →
          dtKey u ≤ dtKey t :=
  (claim_c3_query_latest "wd".toList "svc".toList
    [⟨2023, 5, 1, 0, 0, 0⟩, ⟨2023, 5, 2, 0, 0, 0⟩, ⟨2023, 6, 1, 0, 0, 0⟩]
    (some ⟨2023, 5, 1, 0, 0, 0⟩) (some ⟨2023, 5, 2, 0, 0, 0⟩)
    (by decide)).2 ⟨2023, 5, 2, 0, 0, 0⟩ (by decide) (by decide)

/-- C4 counterexample: saving at an already-occupied `(resource_key,
timestamp)` does not fail and does not leave the stored content unchanged:
the second save silently replaces the first.  This refutes the claim that
`save` errors with `DuplicateTimestamp` and leaves the snapshot intact. -/
theorem claim_c4_counterexample :
    (readFile (save_spec [] "svc".toList ⟨2023, 5, 1, 12, 0, 0⟩ (.str "a"))
      (snapName "svc".toList ⟨2023, 5, 1, 12, 0, 0⟩)).isSome = true ∧
    readFile
      (save_spec (save_spec [] "svc".toList ⟨2023, 5, 1, 12, 0, 0⟩ (.str "a"))
        "svc".toList ⟨2023, 5, 1, 12, 0, 0⟩ (.str "b"))
      (snapName "svc".toList ⟨2023, 5, 1, 12, 0, 0⟩) = some (.str "b") ∧
    deepDiff (.str "b") (.str "a") ≠ [] := by
  refine ⟨by decide, by decide, ?_⟩
  simp [deepDiff]

/-- C4 amended: `save_spec` never fails; saving at an existing
`(resource_key, timestamp)` silently overwrites, and afterwards the stored
content at that timestamp is the newly saved document. -/
theorem claim_c4_save_overwrites (d : FileDir) (base : List Char) (t : DT)
    (doc : Document) :
    readFile (save_spec d base t doc) (snapName base t) = some doc :=
  readFile_writeFile_self d (snapName base t) doc

/-- C5: the derived resource key equals the second-to-last '/'-delimited
segment of the URL's path, and equals `"."` whenever the path has fewer than
two segments. -/
theorem claim_c5_derive_key :
    (∀ u : List Char, extract_default_directory u = derive_key_spec (urlparse_path u)) ∧
    extract_default_directory "https://example.com/api/v2/swagger.json".toList =
      "v2".toList ∧
    extract_default_directory "no-slash".toList = ['.'] := by
  refine ⟨fun u => ?_, by decide, by decide⟩
  unfold extract_default_directory derive_key_spec
  by_cases h : 2 ≤ (splitOnChar '/' (urlparse_path u)).length
  · rw [if_pos h, if_neg (by omega)]
  · rw [if_neg h, if_pos (by omega)]

/-- C6 counterexample: the store can mutate a saved snapshot's content (a
later save at the same timestamp replaces it), and `load_spec` returns
`None` for a saved document that fails the validator — both refute the
unconditional round-trip claim. -/
theorem claim_c6_counterexample :
    load_spec (fun _ => true)
      (save_spec (save_spec [] "svc".toList ⟨2023, 5, 1, 12, 0, 0⟩ (.str "a"))
        "svc".toList ⟨2023, 5, 1, 12, 0, 0⟩ (.str "b"))
      (snapName "svc".toList ⟨2023, 5, 1, 12, 0, 0⟩) = some (.str "b") ∧
    deepDiff (.str "b") (.str "a") ≠ [] ∧
    load_spec (fun _ => false)
      (save_spec [] "svc".toList ⟨2023, 5, 1, 12, 0, 0⟩ (.str "a"))
      (snapName "svc".toList ⟨2023, 5, 1, 12, 0, 0⟩) = none := by
  refine ⟨by decide, ?_, by decide⟩
  simp [deepDiff]

/-- C6 amended: after `save(key, D, t)`, provided `D` passes the loader's
validation and no later save occurs at the same `(key, t)`, loading
`(key, t)` returns exactly `D` (hence a document structurally equal to it:
its self-comparison is empty), and a save at any other valid timestamp
leaves the stored snapshot unchanged. -/
theorem claim_c6_round_trip (validate : Document → Bool) (d : FileDir)
    (base : List Char) (t t' : DT) (doc doc' : Document)
    (hv : validate doc = true) (hwf : wfDoc doc = true)
    (ht : dtValid t = true) (ht' : dtValid t' = true) (hne : t ≠ t') :
    load_spec validate (save_spec d base t doc) (snapName base t) = some doc ∧
    deepDiff doc doc = [] ∧
    load_spec validate (save_spec (save_spec d base t doc) base t' doc')
      (snapName base t) = some doc := by
  have hload : load_spec validate (save_spec d base t doc) (snapName base t) =
      some doc := by
    unfold load_spec save_spec
    simp only [readFile_writeFile_self, hv, if_true]
  refine ⟨hload, dd_refl doc hwf, ?_⟩
  have hnename : snapName base t ≠ snapName base t' := by
    intro hsn
    unfold snapName at hsn
    have h1 : '_' :: (fmtDT t ++ ".json".toList) = '_' :: (fmtDT t' ++ ".json".toList) :=
      List.append_cancel_left hsn
    have h2 : fmtDT t ++ ".json".toList = fmtDT t' ++ ".json".toList :=
      List.tail_eq_of_cons_eq h1
    have h3 : fmtDT t = fmtDT t' := List.append_cancel_right h2
    have h4 := strptime_fmtDT t ht
    rw [h3, strptime_fmtDT t' ht'] at h4
    exact hne (Option.some_injective _ h4).symm
  have hframe : readFile (save_spec (save_spec d base t doc) base t' doc')
      (snapName base t) = readFile (save_spec d base t doc) (snapName base t) :=
    readFile_writeFile_other _ _ _ _ hnename
  unfold load_spec
  rw [hframe]
  unfold load_spec at hload
  exact hload

theorem claim_c6_round_trip_witness :
    load_spec (fun _ => true)
      (save_spec [] "svc".toList ⟨2023, 5, 1, 12, 0, 0⟩ (.str "a"))
      (snapName "svc".toList ⟨2023, 5, 1, 12, 0, 0⟩) = some (.str "a") ∧
    deepDiff (.str "a") (.str "a") = [] ∧
    load_spec (fun _ => true)
      (save_spec (save_spec [] "svc".toList ⟨2023, 5, 1, 12, 0, 0⟩ (.str "a"))
        "svc".toList ⟨2023, 5, 2, 12, 0, 0⟩ (.str "b"))
      (snapName "svc".toList ⟨2023, 5, 1, 12, 0, 0⟩) = some (.str "a") :=
  claim_c6_round_trip (fun _ => true) [] "svc".toList
    ⟨2023, 5, 1, 12, 0, 0⟩ ⟨2023, 5, 2, 12, 0, 0⟩ (.str "a") (.str "b")
    rfl (by simp [wfDoc]) (by decide) (by decide) (by decide)

/-- C10: a directory entry that has the `{base}` prefix and `.json` suffix
but whose embedded timestamp slice does not parse in the fixed
`'%Y%m%d%H%M%S'` format is silently skipped (the `ValueError` is caught):
the query never fails, and its result depends only on the files whose
timestamp slice parses. -/
theorem claim_c10_unparseable_skipped (dir : List Char)
    (listing : List (List Char)) (base : List Char) (s e : Option DT) :
    get_latest_spec_in_range dir listing base s e =
      get_latest_spec_in_range dir (listing.filter (eligibleFile base)) base s e :=
  get_latest_filter_eligible dir listing base s e
